import Mathlib

/-!
Verification of the kishu versioned-session-state engine against its
natural-language specification.

The Python source under `src/kishu` is shallowly embedded below.  Modules
that the repository ships only tests for (`kishu/planning/plan.py`,
`kishu/commit_graph.py`, the checkpoint store) are modelled from the
specification, as marked in the corresponding doc comments.
-/

namespace Kishu

/-- A live Python object as the checkpoint/restore machinery observes it:
`val` is an abstract identity for value comparison, `ser` tells whether
serializing (pickling) the object succeeds, `deser` tells whether
deserializing (unpickling) its stored blob succeeds.  The repository's
`UndeserializableClass` test object is one with `ser = true`,
`deser = false`. -/
structure PyObj where
  val : Nat
  ser : Bool
  deser : Bool
deriving DecidableEq, Repr

/-- A Jupyter user namespace: an ordered association of variable names to
objects, mirroring `kishu.jupyter.namespace.Namespace`'s dict view. -/
abbrev NsList := List (String × PyObj)

/-- Dictionary lookup `ns[k]` on a namespace (first binding wins; keys of
an actual dict are unique, so the order is immaterial). -/
def nsLookup : NsList → String → Option PyObj
  | [], _ => none
  | kv :: rest, k => if kv.1 = k then some kv.2 else nsLookup rest k

/-- `k in ns`. -/
def hasKey : NsList → String → Bool
  | [], _ => false
  | kv :: rest, k => kv.1 = k || hasKey rest k

/-- Dictionary assignment `ns[k] = v`: replaces the binding in place when
the key exists, otherwise appends it. -/
def nsSet (ns : NsList) (k : String) (v : PyObj) : NsList :=
  if hasKey ns k then
    ns.map (fun kv => if kv.1 = k then (k, v) else kv)
  else
    ns ++ [(k, v)]

/-- `ns.update(kvs)`: sequential assignment of every binding of `kvs`. -/
def nsUpdate (ns : NsList) (kvs : NsList) : NsList :=
  kvs.foldl (fun acc kv => nsSet acc kv.1 kv.2) ns

theorem nsLookup_map_replace_ne (ns : NsList) (k : String) (v : PyObj)
    (k' : String) (hne : k' ≠ k) :
    nsLookup (ns.map (fun kv => if kv.1 = k then (k, v) else kv)) k'
      = nsLookup ns k' := by
  induction ns with
  | nil => rfl
  | cons hd tl ih =>
    by_cases h : hd.1 = k
    · have h1 : ¬ (k = k') := Ne.symm hne
      have h2 : ¬ (hd.1 = k') := by rw [h]; exact h1
      simp [nsLookup, h, h1, h2, ih]
    · by_cases h' : hd.1 = k'
      · simp [nsLookup, h, h', hne]
      · simp [nsLookup, h, h', ih]

theorem nsLookup_map_replace_eq (ns : NsList) (k : String) (v : PyObj)
    (hmem : hasKey ns k = true) :
    nsLookup (ns.map (fun kv => if kv.1 = k then (k, v) else kv)) k = some v := by
  induction ns with
  | nil => simp [hasKey] at hmem
  | cons hd tl ih =>
    by_cases h : hd.1 = k
    · simp [nsLookup, h]
    · simp only [hasKey, Bool.or_eq_true, decide_eq_true_eq] at hmem
      rcases hmem with hmem | hmem
      · exact absurd hmem h
      · simp [nsLookup, h, ih hmem]

theorem nsLookup_eq_none_of_not_hasKey (ns : NsList) (k : String)
    (h : hasKey ns k = false) : nsLookup ns k = none := by
  induction ns with
  | nil => rfl
  | cons hd tl ih =>
    simp only [hasKey, Bool.or_eq_false_iff, decide_eq_false_iff_not] at h
    simp [nsLookup, h.1, ih h.2]

theorem nsLookup_append_one (ns : NsList) (k : String) (v : PyObj) (k' : String) :
    nsLookup (ns ++ [(k, v)]) k'
      = match nsLookup ns k' with
        | some w => some w
        | none => if k = k' then some v else none := by
  induction ns with
  | nil => simp [nsLookup]
  | cons hd tl ih =>
    by_cases h : hd.1 = k'
    · simp [nsLookup, h]
    · simp [nsLookup, h, ih]

theorem nsLookup_nsSet (ns : NsList) (k : String) (v : PyObj) (k' : String) :
    nsLookup (nsSet ns k v) k' = if k' = k then some v else nsLookup ns k' := by
  unfold nsSet
  by_cases hmem : hasKey ns k
  · rw [if_pos hmem]
    by_cases hk : k' = k
    · subst hk
      rw [if_pos rfl, nsLookup_map_replace_eq ns k' v hmem]
    · rw [if_neg hk, nsLookup_map_replace_ne ns k v k' hk]
  · rw [if_neg hmem, nsLookup_append_one]
    by_cases hk : k' = k
    · subst hk
      rw [nsLookup_eq_none_of_not_hasKey ns k' (by simpa using hmem)]
    · have : ¬ (k = k') := Ne.symm hk
      cases h : nsLookup ns k' <;> simp [hk, this]

/-- The value the last assignment in a list of bindings gives to `k`. -/
def lastAssign : NsList → String → Option PyObj
  | [], _ => none
  | kv :: rest, k =>
    match lastAssign rest k with
    | some v => some v
    | none => if kv.1 = k then some kv.2 else none

theorem nsLookup_nsUpdate (ns kvs : NsList) (k : String) :
    nsLookup (nsUpdate ns kvs) k =
      match lastAssign kvs k with
      | some v => some v
      | none => nsLookup ns k := by
  induction kvs generalizing ns with
  | nil => simp [nsUpdate, lastAssign]
  | cons kv rest ih =>
    show nsLookup (nsUpdate (nsSet ns kv.1 kv.2) rest) k = _
    rw [ih]
    cases hrest : lastAssign rest k with
    | some v => simp [lastAssign, hrest]
    | none =>
      rw [nsLookup_nsSet]
      simp only [lastAssign, hrest]
      by_cases hk : k = kv.1
      · have h2 : kv.1 = k := hk.symm
        rw [if_pos hk, if_pos h2]
      · have h2 : ¬ (kv.1 = k) := fun h => hk h.symm
        rw [if_neg hk, if_neg h2]

theorem lastAssign_mem {cell : NsList} {k : String} {v : PyObj}
    (h : lastAssign cell k = some v) : (k, v) ∈ cell := by
  induction cell with
  | nil => simp [lastAssign] at h
  | cons kv rest ih =>
    simp only [lastAssign] at h
    cases hrest : lastAssign rest k with
    | some w =>
      rw [hrest] at h
      injection h with h'
      subst h'
      exact List.mem_cons_of_mem _ (ih hrest)
    | none =>
      rw [hrest] at h
      by_cases hk : kv.1 = k
      · rw [if_pos hk] at h
        injection h with h'
        subst h'
        have : kv = (k, kv.2) := by
          cases kv
          simp_all
        rw [this] at *
        exact List.mem_cons_self _ _
      · rw [if_neg hk] at h
        exact absurd h (by simp)

theorem lastAssign_agree {N cell : NsList} {k : String} {v : PyObj}
    (hagree : ∀ kv ∈ cell, nsLookup N kv.1 = some kv.2)
    (h : lastAssign cell k = some v) : nsLookup N k = some v := by
  have hmem := lastAssign_mem h
  simpa using hagree (k, v) hmem

theorem lastAssign_isSome_of_mem {cell : NsList} {k : String}
    (h : k ∈ cell.map Prod.fst) : (lastAssign cell k).isSome := by
  induction cell with
  | nil => simp at h
  | cons kv rest ih =>
    simp only [List.map_cons, List.mem_cons] at h
    simp only [lastAssign]
    cases hrest : lastAssign rest k with
    | some v => simp
    | none =>
      rcases h with h | h
      · simp [h.symm]
      · have := ih h
        rw [hrest] at this
        simp at this

/-! ## Checkpoint and restore plans

Modelled from the spec: `kishu/planning/plan.py` is not part of the
sources, only its tests are, so `CheckpointPlan` and `RestorePlan` are
modelled from sections 4.5 and 4.6 of the specification.  Cell code is
modelled as the list of variable assignments it performs (the repository's
plan tests only ever rerun literal assignment cells such as `a=1`),
"pickled blobs" are modelled as the objects themselves with the `ser` and
`deser` flags deciding serialization and deserialization success, and the
checkpoint store is a table of `(commit_id, name, value)` rows. -/

/-- A cell of code, abstracted to the assignments it performs in order. -/
abbrev Cell := List (String × PyObj)

/-- The checkpoint store under one database file: rows keyed by commit id
and variable name. -/
abbrev CheckpointStore := List (String × String × PyObj)

/-- Modelled from the spec: `CheckpointPlan.run(namespace)` serializes
each selected variable and persists it under the commit id; per-variable
serialization failures are recorded and skipped (they become rerun
candidates at restore). -/
def checkpoint_run (store : CheckpointStore) (commit_id : String)
    (ns : NsList) (var_names : List String) : CheckpointStore :=
  store ++ var_names.filterMap (fun n =>
    match nsLookup ns n with
    | some v => if v.ser then some (commit_id, n, v) else none
    | none => none)

/-- Modelled from the spec: a `RestorePlan` action.  `load` is
`LoadVariable(cell_num, variable_names, fallback_recomputation)`; `rerun`
is `RerunCell(cell_num, cell_code)`.  The `IncrementalLoad` and
`MoveVariable` actions of §4.5 are not exercised by the claims and are
omitted. -/
inductive RAction where
  | load (cell_num : Nat) (names : List String) (fallback : List (Nat × Cell))
  | rerun (cell_num : Nat) (cell : Cell)
deriving DecidableEq, Repr

/-- Modelled from the spec: an ordered restore plan. -/
structure RestorePlan where
  actions : List RAction
deriving DecidableEq, Repr

def RestorePlan.add_load_variable_restore_action (p : RestorePlan)
    (cell_num : Nat) (names : List String) (fallback : List (Nat × Cell)) :
    RestorePlan :=
  ⟨p.actions ++ [RAction.load cell_num names fallback]⟩

def RestorePlan.add_rerun_cell_restore_action (p : RestorePlan)
    (cell_num : Nat) (cell : Cell) : RestorePlan :=
  ⟨p.actions ++ [RAction.rerun cell_num cell]⟩

inductive PlanErr where
  | CommitIdNotExist
deriving DecidableEq, Repr

/-- The rows the store holds for one commit id. -/
def commit_rows (store : CheckpointStore) (cid : String) : CheckpointStore :=
  store.filter (fun r => r.1 = cid)

/-- The stored value of variable `n` in commit `cid`, if present. -/
def store_lookup (store : CheckpointStore) (cid : String) (n : String) :
    Option PyObj :=
  match store with
  | [] => none
  | r :: rest =>
    if r.1 = cid ∧ r.2.1 = n then some r.2.2 else store_lookup rest cid n

/-- Deserialize the requested variables of one `LoadVariable` action;
`none` when any variable is missing from the commit's rows or fails to
deserialize (the action then falls back). -/
def try_load (store : CheckpointStore) (cid : String) :
    List String → Option NsList
  | [] => some []
  | n :: rest =>
    match store_lookup store cid n with
    | some v =>
      if v.deser then (try_load store cid rest).map (fun kvs => (n, v) :: kvs)
      else none
    | none => none

/-- Execute fallback cells in a fresh sub-namespace (spec §4.5: "execute
its `fallback_cells` in a fresh sub-namespace and copy the resulting
names"). -/
def run_cells (cells : List (Nat × Cell)) : NsList :=
  cells.foldl (fun acc c => nsUpdate acc c.2) []

/-- The running state of `RestorePlan.run`: the namespace assembled so far
and the actions that fell back. -/
structure RestoreResult where
  ns : NsList
  fallbacked_actions : List RAction
deriving DecidableEq, Repr

/-- Modelled from the spec: execute one restore action.  `RerunCell`
reruns the cell seeded with the result namespace and merges back;
`LoadVariable` raises `CommitIdNotExist` when the target commit has no
stored snapshots at all (matching `test_checkout_wrong_id_error`, which
raises even though a fallback is available), loads the requested
variables when they all deserialize, and otherwise falls back to
recomputation, recording itself in `fallbacked_actions`. -/
def run_action (store : CheckpointStore) (cid : String) (st : RestoreResult) :
    RAction → Except PlanErr RestoreResult
  | RAction.rerun _ cell => Except.ok { st with ns := nsUpdate st.ns cell }
  | RAction.load cell_num names fallback =>
    if commit_rows store cid = [] then Except.error PlanErr.CommitIdNotExist
    else
      match try_load store cid names with
      | some kvs => Except.ok { st with ns := nsUpdate st.ns kvs }
      | none =>
        Except.ok
          { ns := nsUpdate st.ns (run_cells fallback),
            fallbacked_actions :=
              st.fallbacked_actions ++ [RAction.load cell_num names fallback] }

/-- Modelled from the spec: `RestorePlan.run(filename, commit_id)` builds
an empty result namespace and executes the actions in order. -/
def RestorePlan.run (p : RestorePlan) (store : CheckpointStore)
    (cid : String) : Except PlanErr RestoreResult :=
  p.actions.foldlM (run_action store cid) ⟨[], []⟩

/-- Whether an action is a `LoadVariable` action. -/
def RAction.isLoad : RAction → Bool
  | RAction.load _ _ _ => true
  | RAction.rerun _ _ => false

theorem run_action_rerun_ok (store : CheckpointStore) (cid : String)
    (st : RestoreResult) (a : RAction) (h : a.isLoad = false) :
    ∃ st', run_action store cid st a = Except.ok st' ∧
      st'.fallbacked_actions = st.fallbacked_actions := by
  cases a with
  | load cn names fb => simp [RAction.isLoad] at h
  | rerun cn cell => exact ⟨_, rfl, rfl⟩

theorem foldlM_error_of_load {store : CheckpointStore} {cid : String}
    (hrows : commit_rows store cid = []) :
    ∀ (acts : List RAction) (st : RestoreResult),
      (∃ a ∈ acts, a.isLoad = true) →
      acts.foldlM (run_action store cid) st =
        Except.error PlanErr.CommitIdNotExist := by
  intro acts
  induction acts with
  | nil => intro st h; simp at h
  | cons a rest ih =>
    intro st h
    cases a with
    | load cn names fb =>
      simp only [List.foldlM_cons, run_action, hrows, if_pos rfl]
      rfl
    | rerun cn cell =>
      have hrest : ∃ a ∈ rest, a.isLoad = true := by
        rcases h with ⟨b, hb, hload⟩
        rcases List.mem_cons.mp hb with hb | hb
        · subst hb
          simp [RAction.isLoad] at hload
        · exact ⟨b, hb, hload⟩
      simp only [List.foldlM_cons, run_action]
      exact ih _ hrest

/-- C6: when the checkpoint store holds no rows for the target commit id
and the plan is not pure rerun (it contains at least one `LoadVariable`
action, so no rerun-only plan is viable), `RestorePlan.run` raises
`CommitIdNotExist`. -/
theorem C6_restore_missing_commit (p : RestorePlan) (store : CheckpointStore)
    (cid : String) (hrows : commit_rows store cid = [])
    (hload : ∃ a ∈ p.actions, a.isLoad = true) :
    p.run store cid = Except.error PlanErr.CommitIdNotExist :=
  foldlM_error_of_load hrows p.actions ⟨[], []⟩ hload

/-- C6 witness: the scenario of `test_checkout_wrong_id_error` — an empty
checkpoint store, commit id "abc", and a plan holding one
`LoadVariable(1, ["a"], [(1, a=1)])` action. -/
theorem C6_witness :
    commit_rows [] "abc" = [] ∧
    (∃ a ∈ (RestorePlan.mk []).add_load_variable_restore_action 1 ["a"]
        [(1, [("a", PyObj.mk 1 true true)])] |>.actions, a.isLoad = true) ∧
    ((RestorePlan.mk []).add_load_variable_restore_action 1 ["a"]
        [(1, [("a", PyObj.mk 1 true true)])]).run [] "abc" =
      Except.error PlanErr.CommitIdNotExist := by
  refine ⟨rfl, ⟨RAction.load 1 ["a"] [(1, [("a", PyObj.mk 1 true true)])],
    by simp [RestorePlan.add_load_variable_restore_action], rfl⟩, ?_⟩
  exact C6_restore_missing_commit _ _ _ rfl
    ⟨RAction.load 1 ["a"] [(1, [("a", PyObj.mk 1 true true)])],
      by simp [RestorePlan.add_load_variable_restore_action], rfl⟩

/-! ### Restoration correctness (claims C2, C3) -/

/-- Every assignment of the cell writes the value the reference namespace
`N` holds for that variable. -/
def cell_agrees (N : NsList) (cell : Cell) : Prop :=
  ∀ kv ∈ cell, nsLookup N kv.1 = some kv.2

/-- The variable names an action (re)creates in the result namespace. -/
def action_names : RAction → List String
  | RAction.load _ names _ => names
  | RAction.rerun _ cell => cell.map Prod.fst

/-- Whether a `LoadVariable` of `names` fails against the store: some
requested variable is absent from the commit's rows or does not
deserialize. -/
def load_action_fails (store : CheckpointStore) (cid : String)
    (names : List String) : Bool :=
  names.any (fun n =>
    match store_lookup store cid n with
    | some v => !v.deser
    | none => true)

/-- Whether an action falls back when executed against the store. -/
def action_fails (store : CheckpointStore) (cid : String) : RAction → Bool
  | RAction.load _ names _ => load_action_fails store cid names
  | RAction.rerun _ _ => false

theorem mem_keys_of_nsLookup_isSome {L : NsList} {k : String}
    (h : (nsLookup L k).isSome) : k ∈ L.map Prod.fst := by
  induction L with
  | nil => simp [nsLookup] at h
  | cons kv rest ih =>
    by_cases hk : kv.1 = k
    · simp [hk.symm]
    · simp only [nsLookup, if_neg hk] at h
      simp [ih h]

theorem nsLookup_isSome_of_mem_keys {L : NsList} {k : String}
    (h : k ∈ L.map Prod.fst) : (nsLookup L k).isSome := by
  induction L with
  | nil => simp at h
  | cons kv rest ih =>
    by_cases hk : kv.1 = k
    · simp [nsLookup, hk]
    · simp only [List.map_cons, List.mem_cons] at h
      rcases h with h | h
      · exact absurd h.symm hk
      · simp only [nsLookup, if_neg hk]
        exact ih h

theorem cell_agrees_nsSet {N ns : NsList} {k : String} {v : PyObj}
    (hns : cell_agrees N ns) (hv : nsLookup N k = some v) :
    cell_agrees N (nsSet ns k v) := by
  intro kv hkv
  unfold nsSet at hkv
  by_cases hmem : hasKey ns k
  · rw [if_pos hmem] at hkv
    rcases List.mem_map.mp hkv with ⟨kv', hkv', heq⟩
    by_cases h : kv'.1 = k
    · rw [if_pos h] at heq
      subst heq
      exact hv
    · rw [if_neg h] at heq
      subst heq
      exact hns kv' hkv'
  · rw [if_neg hmem] at hkv
    rcases List.mem_append.mp hkv with h | h
    · exact hns kv h
    · simp only [List.mem_singleton] at h
      subst h
      exact hv

theorem cell_agrees_nsUpdate {N ns : NsList} {kvs : Cell}
    (hns : cell_agrees N ns) (hkvs : cell_agrees N kvs) :
    cell_agrees N (nsUpdate ns kvs) := by
  induction kvs generalizing ns with
  | nil => exact hns
  | cons kv rest ih =>
    show cell_agrees N (nsUpdate (nsSet ns kv.1 kv.2) rest)
    have hv : nsLookup N kv.1 = some kv.2 := hkvs kv (List.mem_cons_self _ _)
    exact ih (cell_agrees_nsSet hns hv) (fun kv' h => hkvs kv' (List.mem_cons_of_mem _ h))

theorem cell_agrees_run_cells {N : NsList} {fb : List (Nat × Cell)}
    (h : ∀ c ∈ fb, cell_agrees N c.2) : cell_agrees N (run_cells fb) := by
  unfold run_cells
  have : ∀ (cs : List (Nat × Cell)) (ns : NsList), cell_agrees N ns →
      (∀ c ∈ cs, cell_agrees N c.2) →
      cell_agrees N (cs.foldl (fun acc c => nsUpdate acc c.2) ns) := by
    intro cs
    induction cs with
    | nil => intro ns hns _; exact hns
    | cons c rest ih =>
      intro ns hns hcs
      exact ih _ (cell_agrees_nsUpdate hns (hcs c (List.mem_cons_self _ _)))
        (fun c' h' => hcs c' (List.mem_cons_of_mem _ h'))
  exact this fb [] (fun kv h => by simp at h) h

/-- Looking a variable up after merging an agreeing binding list: the
result either comes from the merged list (and then agrees with `N`) or is
unchanged. -/
theorem nsLookup_nsUpdate_agree {N ns : NsList} {L : Cell}
    (hL : cell_agrees N L) (k : String) :
    (nsLookup (nsUpdate ns L) k = nsLookup ns k ∧ lastAssign L k = none) ∨
      nsLookup (nsUpdate ns L) k = nsLookup N k := by
  rw [nsLookup_nsUpdate]
  cases h : lastAssign L k with
  | none => exact Or.inl ⟨rfl, rfl⟩
  | some v =>
    refine Or.inr ?_
    have := hL (k, v) (lastAssign_mem h)
    simpa using this.symm

theorem store_lookup_checkpoint_sound {N : NsList} {vs : List String}
    {cid cid' n : String} {v : PyObj}
    (h : store_lookup (checkpoint_run [] cid N vs) cid' n = some v) :
    nsLookup N n = some v := by
  unfold checkpoint_run at h
  simp only [List.nil_append] at h
  induction vs with
  | nil => simp [store_lookup] at h
  | cons m rest ih =>
    simp only [List.filterMap_cons] at h
    cases hm : nsLookup N m with
    | none =>
      rw [hm] at h
      exact ih h
    | some w =>
      rw [hm] at h
      by_cases hser : w.ser
      · simp only [if_pos hser, store_lookup] at h
        by_cases hcond : (cid, m, w).1 = cid' ∧ ((cid, m, w).2.1 = n)
        · rw [if_pos hcond] at h
          injection h with h'
          subst h'
          have : m = n := hcond.2
          subst this
          exact hm
        · rw [if_neg hcond] at h
          exact ih h
      · simp only [if_neg hser] at h
        exact ih h

theorem store_lookup_checkpoint {N : NsList} {vs : List String}
    {cid n : String} {v : PyObj}
    (hmem : n ∈ vs) (hv : nsLookup N n = some v) (hser : v.ser = true) :
    store_lookup (checkpoint_run [] cid N vs) cid n = some v := by
  unfold checkpoint_run
  simp only [List.nil_append]
  induction vs with
  | nil => simp at hmem
  | cons m rest ih =>
    simp only [List.filterMap_cons]
    rcases List.mem_cons.mp hmem with heq | hmem'
    · subst heq
      simp [store_lookup, hv, hser]
    · cases hm : nsLookup N m with
      | none =>
        exact ih hmem'
      | some w =>
        by_cases hws : w.ser = true
        · by_cases hmn : m = n
          · subst hmn
            rw [hm] at hv
            injection hv with h'
            subst h'
            simp [store_lookup, hws]
          · simpa [store_lookup, hws, hmn] using ih hmem'
        · have hws' : w.ser = false := by simpa using hws
          simpa [hws'] using ih hmem'

theorem commit_rows_ne_nil_of_store_lookup {store : CheckpointStore}
    {cid n : String} {v : PyObj} (h : store_lookup store cid n = some v) :
    commit_rows store cid ≠ [] := by
  induction store with
  | nil => simp [store_lookup] at h
  | cons r rest ih =>
    by_cases hcond : r.1 = cid ∧ r.2.1 = n
    · simp [commit_rows, List.filter_cons, hcond.1]
    · simp only [store_lookup, if_neg hcond] at h
      simp only [commit_rows, List.filter_cons]
      by_cases hr : r.1 = cid
      · simp [hr]
      · simpa [hr, commit_rows] using ih h

theorem try_load_eq_none_iff (store : CheckpointStore) (cid : String)
    (names : List String) :
    try_load store cid names = none ↔
      load_action_fails store cid names = true := by
  induction names with
  | nil => simp [try_load, load_action_fails]
  | cons n rest ih =>
    cases hn : store_lookup store cid n with
    | none => simp [try_load, load_action_fails, hn]
    | some v =>
      by_cases hd : v.deser = true
      · cases hrest : try_load store cid rest with
        | none =>
          have hfail := ih.mp hrest
          simp only [try_load, hn, hd, hrest, if_pos rfl, Option.map_none']
          simpa [load_action_fails, hn, hd] using hfail
        | some kvs =>
          have hnofail : load_action_fails store cid rest = false := by
            by_contra hc
            have hc' : load_action_fails store cid rest = true := by simpa using hc
            have := ih.mpr hc'
            rw [hrest] at this
            exact absurd this (by simp)
          simp only [try_load, hn, hd, hrest, if_pos rfl, Option.map_some']
          simpa [load_action_fails, hn, hd] using hnofail
      · have hd' : v.deser = false := by simpa using hd
        simp [try_load, load_action_fails, hn, hd']

theorem try_load_eq_some (store : CheckpointStore) (cid : String)
    (names : List String)
    (h : ∀ n ∈ names, ∃ v, store_lookup store cid n = some v ∧ v.deser = true) :
    ∃ kvs, try_load store cid names = some kvs ∧
      (∀ kv ∈ kvs, store_lookup store cid kv.1 = some kv.2) ∧
      kvs.map Prod.fst = names := by
  induction names with
  | nil => exact ⟨[], rfl, fun kv h => by simp at h, rfl⟩
  | cons n rest ih =>
    rcases h n (List.mem_cons_self _ _) with ⟨v, hv, hd⟩
    rcases ih (fun m hm => h m (List.mem_cons_of_mem _ hm)) with
      ⟨kvs, hkvs, hsound, hkeys⟩
    refine ⟨(n, v) :: kvs, ?_, ?_, ?_⟩
    · simp [try_load, hv, hd, hkvs]
    · intro kv hkv
      rcases List.mem_cons.mp hkv with heq | hmem
      · subst heq
        exact hv
      · exact hsound kv hmem
    · simp [hkeys]

theorem sound_nsUpdate {N ns : NsList} {L : Cell}
    (Hst : ∀ k v, nsLookup ns k = some v → nsLookup N k = some v)
    (hL : cell_agrees N L) :
    ∀ k v, nsLookup (nsUpdate ns L) k = some v → nsLookup N k = some v := by
  intro k v h
  rw [nsLookup_nsUpdate] at h
  cases hla : lastAssign L k with
  | some w =>
    rw [hla] at h
    injection h with h'
    subst h'
    exact lastAssign_agree hL hla
  | none =>
    rw [hla] at h
    exact Hst k v h

theorem isSome_nsUpdate_of_isSome {ns : NsList} {L : Cell} {k : String}
    (h : (nsLookup ns k).isSome) : (nsLookup (nsUpdate ns L) k).isSome := by
  rw [nsLookup_nsUpdate]
  cases hla : lastAssign L k with
  | some w => simp
  | none => exact h

theorem isSome_nsUpdate_of_lastAssign {ns : NsList} {L : Cell} {k : String}
    (h : (lastAssign L k).isSome) : (nsLookup (nsUpdate ns L) k).isSome := by
  rw [nsLookup_nsUpdate]
  cases hla : lastAssign L k with
  | some w => simp
  | none => rw [hla] at h; simp at h

theorem load_not_fails {store : CheckpointStore} {cid : String}
    {names : List String} (h : load_action_fails store cid names = false) :
    ∀ n ∈ names, ∀ v, store_lookup store cid n = some v → v.deser = true := by
  intro n hn v hv
  unfold load_action_fails at h
  rw [List.any_eq_false] at h
  have := h n hn
  rw [hv] at this
  simpa using this

/-- The per-action obligations used by the restoration invariant: a
`LoadVariable` action asks for at least one variable, all requested
variables are stored for the commit, and — when the load will fail — its
fallback cells agree with the reference namespace and recompute at least
the requested names; a `RerunCell` cell agrees with the reference
namespace. -/
def action_ok (N : NsList) (store : CheckpointStore) (cid : String) :
    RAction → Prop
  | RAction.load _ names fb =>
      names ≠ [] ∧
      (∀ n ∈ names, ∃ v, store_lookup store cid n = some v) ∧
      (load_action_fails store cid names = true →
        (∀ c ∈ fb, cell_agrees N c.2) ∧
        ∀ n ∈ names, (nsLookup (run_cells fb) n).isSome)
  | RAction.rerun _ cell => cell_agrees N cell

/-- The invariant carried through `RestorePlan.run`: executing any list of
well-formed actions succeeds, produces only bindings that agree with the
reference namespace, covers every name the actions write, and records in
`fallbacked_actions` exactly the actions that fail. -/
theorem run_aux (N : NsList) (store : CheckpointStore) (cid : String)
    (Hsound : ∀ n v, store_lookup store cid n = some v → nsLookup N n = some v) :
    ∀ (acts : List RAction) (st : RestoreResult),
      (∀ k v, nsLookup st.ns k = some v → nsLookup N k = some v) →
      (∀ a ∈ acts, action_ok N store cid a) →
      ∃ st', acts.foldlM (run_action store cid) st = Except.ok st' ∧
        (∀ k v, nsLookup st'.ns k = some v → nsLookup N k = some v) ∧
        (∀ k, (nsLookup st.ns k).isSome → (nsLookup st'.ns k).isSome) ∧
        (∀ a ∈ acts, ∀ k, k ∈ action_names a → (nsLookup st'.ns k).isSome) ∧
        st'.fallbacked_actions =
          st.fallbacked_actions ++ acts.filter (action_fails store cid) := by
  intro acts
  induction acts with
  | nil =>
    intro st Hst _
    exact ⟨st, rfl, Hst, fun k h => h, fun a ha => by simp at ha, by simp⟩
  | cons a rest ih =>
    intro st Hst HA
    have hA := HA a (List.mem_cons_self _ _)
    have HArest : ∀ a' ∈ rest, action_ok N store cid a' :=
      fun a' h => HA a' (List.mem_cons_of_mem _ h)
    -- execute the first action
    obtain ⟨st1, hstep, hsound1, hpres1, hcov1, hfb1⟩ :
        ∃ st1, run_action store cid st a = Except.ok st1 ∧
          (∀ k v, nsLookup st1.ns k = some v → nsLookup N k = some v) ∧
          (∀ k, (nsLookup st.ns k).isSome → (nsLookup st1.ns k).isSome) ∧
          (∀ k, k ∈ action_names a → (nsLookup st1.ns k).isSome) ∧
          st1.fallbacked_actions = st.fallbacked_actions ++
            (if action_fails store cid a then [a] else []) := by
      cases a with
      | rerun cn cell =>
        have hcell : cell_agrees N cell := hA
        refine ⟨{ st with ns := nsUpdate st.ns cell }, rfl,
          sound_nsUpdate Hst hcell, fun k h => isSome_nsUpdate_of_isSome h,
          ?_, by simp [action_fails]⟩
        intro k hk
        exact isSome_nsUpdate_of_lastAssign (lastAssign_isSome_of_mem hk)
      | load cn names fb =>
        obtain ⟨hne, hstored, hfb⟩ := hA
        have hrows : commit_rows store cid ≠ [] := by
          rcases List.exists_mem_of_ne_nil names hne with ⟨n0, hn0⟩
          rcases hstored n0 hn0 with ⟨v0, hv0⟩
          exact commit_rows_ne_nil_of_store_lookup hv0
        by_cases hfails : load_action_fails store cid names = true
        · have htl : try_load store cid names = none :=
            (try_load_eq_none_iff store cid names).mpr hfails
          obtain ⟨hagree, hcover⟩ := hfb hfails
          have hrc : cell_agrees N (run_cells fb) := cell_agrees_run_cells hagree
          refine ⟨RestoreResult.mk (nsUpdate st.ns (run_cells fb))
              (st.fallbacked_actions ++ [RAction.load cn names fb]), ?_,
            sound_nsUpdate Hst hrc, fun k h => isSome_nsUpdate_of_isSome h,
            ?_, by simp [action_fails, hfails]⟩
          · simp [run_action, hrows, htl]
          · intro k hk
            have := hcover k hk
            exact isSome_nsUpdate_of_lastAssign
              (lastAssign_isSome_of_mem (mem_keys_of_nsLookup_isSome this))
        · have hfails' : load_action_fails store cid names = false := by
            simpa using hfails
          have hdeser : ∀ n ∈ names, ∃ v,
              store_lookup store cid n = some v ∧ v.deser = true := by
            intro n hn
            rcases hstored n hn with ⟨v, hv⟩
            exact ⟨v, hv, load_not_fails hfails' n hn v hv⟩
          obtain ⟨kvs, hkvs, hsoundkvs, hkeys⟩ :=
            try_load_eq_some store cid names hdeser
          have hagree : cell_agrees N kvs := by
            intro kv hkv
            exact Hsound kv.1 kv.2 (hsoundkvs kv hkv)
          refine ⟨{ st with ns := nsUpdate st.ns kvs }, ?_,
            sound_nsUpdate Hst hagree, fun k h => isSome_nsUpdate_of_isSome h,
            ?_, by simp [action_fails, hfails']⟩
          · simp [run_action, hrows, hkvs]
          · intro k hk
            rw [← hkeys] at hk
            exact isSome_nsUpdate_of_lastAssign (lastAssign_isSome_of_mem hk)
    -- execute the rest
    obtain ⟨st', hrest, hsound', hpres', hcov', hfb'⟩ := ih st1 hsound1 HArest
    refine ⟨st', ?_, hsound', fun k h => hpres' k (hpres1 k h), ?_, ?_⟩
    · simp only [List.foldlM_cons, hstep]
      exact hrest
    · intro b hb k hk
      rcases List.mem_cons.mp hb with hb | hb
      · subst hb
        exact hpres' k (hcov1 k hk)
      · exact hcov' b hb k hk
    · rw [hfb', hfb1, List.filter_cons]
      by_cases hf : action_fails store cid a
      · simp [hf, List.append_assoc]
      · simp [hf]

theorem nsLookup_mem {L : NsList} {k : String} {v : PyObj}
    (h : nsLookup L k = some v) : (k, v) ∈ L := by
  induction L with
  | nil => simp [nsLookup] at h
  | cons kv rest ih =>
    by_cases hk : kv.1 = k
    · simp only [nsLookup, if_pos hk] at h
      injection h with h'
      subst h'
      have : kv = (k, kv.2) := by
        cases kv
        simp_all
      rw [this] at *
      exact List.mem_cons_self _ _
    · simp only [nsLookup, if_neg hk] at h
      exact List.mem_cons_of_mem _ (ih h)

/-- C2: a namespace checkpointed with `CheckpointPlan.run` in which every
object is serializable is restored exactly by `RestorePlan.run`: for a
plan whose `LoadVariable` actions request checkpointed variables, whose
`RerunCell` cells recompute the values the namespace held, and whose
actions together cover every variable, the run succeeds, nothing falls
back, and the resulting namespace equals `N` — same key set and an equal
value at every key.  Plans of only loads, only reruns, or a mix are all
instances. -/
theorem C2_restore_equals_namespace (N : NsList) (vs : List String)
    (cid : String) (p : RestorePlan)
    (Hser : ∀ k v, nsLookup N k = some v → v.ser = true ∧ v.deser = true)
    (Hvs : ∀ n ∈ vs, (nsLookup N n).isSome)
    (Hload : ∀ cn names fb, RAction.load cn names fb ∈ p.actions →
      names ≠ [] ∧ ∀ n ∈ names, n ∈ vs)
    (Hrerun : ∀ cn cell, RAction.rerun cn cell ∈ p.actions → cell_agrees N cell)
    (Hcover : ∀ k, (nsLookup N k).isSome → ∃ a ∈ p.actions, k ∈ action_names a) :
    ∃ st, p.run (checkpoint_run [] cid N vs) cid = Except.ok st ∧
      (∀ k, nsLookup st.ns k = nsLookup N k) ∧
      st.fallbacked_actions = [] := by
  set store := checkpoint_run [] cid N vs with hstore
  have Hsound : ∀ n v, store_lookup store cid n = some v → nsLookup N n = some v :=
    fun n v h => store_lookup_checkpoint_sound h
  have Hstored : ∀ n ∈ vs, ∃ v, store_lookup store cid n = some v ∧
      v.deser = true := by
    intro n hn
    obtain ⟨v, hv⟩ := Option.isSome_iff_exists.mp (Hvs n hn)
    exact ⟨v, store_lookup_checkpoint hn hv (Hser n v hv).1, (Hser n v hv).2⟩
  have HnoFail : ∀ cn names fb, RAction.load cn names fb ∈ p.actions →
      load_action_fails store cid names = false := by
    intro cn names fb ha
    by_contra hc
    have hc' : load_action_fails store cid names = true := by
      cases h : load_action_fails store cid names
      · exact absurd h hc
      · rfl
    unfold load_action_fails at hc'
    rw [List.any_eq_true] at hc'
    obtain ⟨n, hn, hpred⟩ := hc'
    obtain ⟨v, hv, hd⟩ := Hstored n ((Hload cn names fb ha).2 n hn)
    rw [hv] at hpred
    simp [hd] at hpred
  have HAok : ∀ a ∈ p.actions, action_ok N store cid a := by
    intro a ha
    cases a with
    | load cn names fb =>
      obtain ⟨hne, hsub⟩ := Hload cn names fb ha
      refine ⟨hne, ?_, ?_⟩
      · intro n hn
        obtain ⟨v, hv, _⟩ := Hstored n (hsub n hn)
        exact ⟨v, hv⟩
      · intro hfails
        rw [HnoFail cn names fb ha] at hfails
        exact absurd hfails (by simp)
    | rerun cn cell => exact Hrerun cn cell ha
  obtain ⟨st', hrun, hsound', _, hcov', hfb'⟩ :=
    run_aux N store cid Hsound p.actions ⟨[], []⟩
      (fun k v h => by simp [nsLookup] at h) HAok
  refine ⟨st', hrun, ?_, ?_⟩
  · intro k
    cases hsk : nsLookup st'.ns k with
    | some v => exact (hsound' k v hsk).symm
    | none =>
      cases hNk : nsLookup N k with
      | none => rfl
      | some w =>
        obtain ⟨a, ha, hk⟩ := Hcover k (by simp [hNk])
        have := hcov' a ha k hk
        rw [hsk] at this
        simp at this
  · rw [hfb']
    have : p.actions.filter (action_fails store cid) = [] := by
      rw [List.filter_eq_nil_iff]
      intro a ha
      cases a with
      | load cn names fb => simp [action_fails, HnoFail cn names fb ha]
      | rerun cn cell => simp [action_fails]
    rw [this]
    simp

/-- C2 witness: the `test_mix_reload_recompute_restore_plan` scenario —
namespace `a = 1, b = 2` with `a` checkpointed, restored by
`LoadVariable(1, [a], ...)` plus `RerunCell(2, b=2)`. -/
theorem C2_witness :
    (∃ st,
      (RestorePlan.mk [
        RAction.load 1 ["a"] [(1, [("a", PyObj.mk 1 true true)])],
        RAction.rerun 2 [("b", PyObj.mk 2 true true)]]).run
          (checkpoint_run [] "1"
            [("a", PyObj.mk 1 true true), ("b", PyObj.mk 2 true true)]
            ["a"]) "1" = Except.ok st ∧
      (∀ k, nsLookup st.ns k =
        nsLookup [("a", PyObj.mk 1 true true), ("b", PyObj.mk 2 true true)] k) ∧
      st.fallbacked_actions = []) := by
  apply C2_restore_equals_namespace
  · intro k v h
    have hm := nsLookup_mem h
    simp only [List.mem_cons, List.mem_singleton] at hm
    rcases hm with hm | hm | hm
    · rw [(Prod.mk.injEq _ _ _ _).mp hm |>.2]; exact ⟨rfl, rfl⟩
    · rw [(Prod.mk.injEq _ _ _ _).mp hm |>.2]; exact ⟨rfl, rfl⟩
    · simp at hm
  · intro n hn
    simp only [List.mem_singleton] at hn
    subst hn
    simp [nsLookup]
  · intro cn names fb h
    simp only [RestorePlan.mk] at h
    rcases List.mem_cons.mp h with h | h
    · injection h with h1 h2 h3
      subst h1; subst h2; subst h3
      exact ⟨by simp, by intro n hn; simpa using hn⟩
    · rcases List.mem_cons.mp h with h | h
      · exact absurd h (by simp)
      · exact absurd h (by simp)
  · intro cn cell h
    simp only [RestorePlan.mk] at h
    rcases List.mem_cons.mp h with h | h
    · exact absurd h (by simp)
    · rcases List.mem_cons.mp h with h | h
      · injection h with h1 h2
        subst h1; subst h2
        intro kv hkv
        simp only [List.mem_singleton] at hkv
        subst hkv
        simp [nsLookup]
      · exact absurd h (by simp)
  · intro k hk
    have := mem_keys_of_nsLookup_isSome hk
    simp only [List.map_cons, List.map_nil, List.mem_cons, List.mem_singleton]
      at this
    rcases this with h | h | h
    · subst h
      exact ⟨RAction.load 1 ["a"] [(1, [("a", PyObj.mk 1 true true)])],
        by simp, by simp [action_names]⟩
    · subst h
      exact ⟨RAction.rerun 2 [("b", PyObj.mk 2 true true)],
        by simp, by simp [action_names]⟩
    · simp at h

/-- Referee predicate for C3: whether a plan action tries to load a
variable whose object does not deserialize from the reference
namespace's checkpoint (such `LoadVariable` actions fail and fall
back). -/
def plan_action_fails (N : NsList) : RAction → Bool
  | RAction.load _ names _ =>
    names.any (fun n =>
      match nsLookup N n with
      | some v => !v.deser
      | none => true)
  | RAction.rerun _ _ => false

theorem any_congr_mem {α : Type} {l : List α} {f g : α → Bool}
    (h : ∀ x ∈ l, f x = g x) : l.any f = l.any g := by
  induction l with
  | nil => rfl
  | cons x rest ih =>
    simp only [List.any_cons]
    rw [h x (List.mem_cons_self _ _),
      ih (fun y hy => h y (List.mem_cons_of_mem _ hy))]

/-- C3: restoring a checkpointed namespace holding objects whose
deserialization fails still succeeds: every failing `LoadVariable` action
— and only those — is recorded once in `fallbacked_actions`, its variables
are reconstructed by executing its fallback cells, and the resulting
namespace equals `N` by key set and per-key value. -/
theorem C3_fallback_recomputation (N : NsList) (vs : List String)
    (cid : String) (p : RestorePlan)
    (Hser : ∀ k v, nsLookup N k = some v → v.ser = true)
    (Hvs : ∀ n ∈ vs, (nsLookup N n).isSome)
    (Hload : ∀ cn names fb, RAction.load cn names fb ∈ p.actions →
      names ≠ [] ∧ (∀ n ∈ names, n ∈ vs) ∧
      (∀ c ∈ fb, cell_agrees N c.2) ∧
      (∀ n ∈ names, (nsLookup (run_cells fb) n).isSome))
    (Hrerun : ∀ cn cell, RAction.rerun cn cell ∈ p.actions → cell_agrees N cell)
    (Hcover : ∀ k, (nsLookup N k).isSome → ∃ a ∈ p.actions, k ∈ action_names a)
    (Hbad : ∃ cn names fb, RAction.load cn names fb ∈ p.actions ∧
      ∃ n ∈ names, ∃ v, nsLookup N n = some v ∧ v.deser = false) :
    ∃ st, p.run (checkpoint_run [] cid N vs) cid = Except.ok st ∧
      (∀ k, nsLookup st.ns k = nsLookup N k) ∧
      st.fallbacked_actions = p.actions.filter (plan_action_fails N) ∧
      st.fallbacked_actions ≠ [] := by
  set store := checkpoint_run [] cid N vs with hstore
  have Hsound : ∀ n v, store_lookup store cid n = some v → nsLookup N n = some v :=
    fun n v h => store_lookup_checkpoint_sound h
  have Hstored : ∀ n ∈ vs, ∃ v, store_lookup store cid n = some v ∧
      nsLookup N n = some v := by
    intro n hn
    obtain ⟨v, hv⟩ := Option.isSome_iff_exists.mp (Hvs n hn)
    exact ⟨v, store_lookup_checkpoint hn hv (Hser n v hv), hv⟩
  have Hfails_eq : ∀ a ∈ p.actions,
      action_fails store cid a = plan_action_fails N a := by
    intro a ha
    cases a with
    | rerun cn cell => rfl
    | load cn names fb =>
      obtain ⟨_, hsub, _, _⟩ := Hload cn names fb ha
      show load_action_fails store cid names = _
      unfold load_action_fails plan_action_fails
      apply any_congr_mem
      intro n hn
      obtain ⟨v, hvs, hvN⟩ := Hstored n (hsub n hn)
      rw [hvs, hvN]
  have HAok : ∀ a ∈ p.actions, action_ok N store cid a := by
    intro a ha
    cases a with
    | load cn names fb =>
      obtain ⟨hne, hsub, hagree, hcov⟩ := Hload cn names fb ha
      refine ⟨hne, ?_, fun _ => ⟨hagree, hcov⟩⟩
      intro n hn
      obtain ⟨v, hv, _⟩ := Hstored n (hsub n hn)
      exact ⟨v, hv⟩
    | rerun cn cell => exact Hrerun cn cell ha
  obtain ⟨st', hrun, hsound', _, hcov', hfb'⟩ :=
    run_aux N store cid Hsound p.actions ⟨[], []⟩
      (fun k v h => by simp [nsLookup] at h) HAok
  have hfilter : p.actions.filter (action_fails store cid) =
      p.actions.filter (plan_action_fails N) :=
    List.filter_congr Hfails_eq
  refine ⟨st', hrun, ?_, ?_, ?_⟩
  · intro k
    cases hsk : nsLookup st'.ns k with
    | some v => exact (hsound' k v hsk).symm
    | none =>
      cases hNk : nsLookup N k with
      | none => rfl
      | some w =>
        obtain ⟨a, ha, hk⟩ := Hcover k (by simp [hNk])
        have := hcov' a ha k hk
        rw [hsk] at this
        simp at this
  · rw [hfb', hfilter]
    simp
  · rw [hfb', hfilter]
    obtain ⟨cn, names, fb, ha, n, hn, v, hvN, hvd⟩ := Hbad
    have hfail : plan_action_fails N (RAction.load cn names fb) = true := by
      unfold plan_action_fails
      rw [List.any_eq_true]
      refine ⟨n, hn, ?_⟩
      rw [hvN]
      simp [hvd]
    intro hcontra
    have : RAction.load cn names fb ∈
        p.actions.filter (plan_action_fails N) :=
      List.mem_filter.mpr ⟨ha, hfail⟩
    rw [show ([] : List RAction) ++ p.actions.filter (plan_action_fails N)
        = p.actions.filter (plan_action_fails N) by simp] at hcontra
    rw [hcontra] at this
    simp at this

/-- C3 witness: the `test_fallback_recomputation` scenario — namespace
with `UndeserializableClass` and `foo` (both pickle but fail to
unpickle), restored by two `LoadVariable` actions that both fall back to
their recomputation cells. -/
theorem C3_witness :
    (∃ st,
      (RestorePlan.mk [
        RAction.load 1 ["UndeserializableClass"]
          [(1, [("UndeserializableClass", PyObj.mk 10 true false)])],
        RAction.load 2 ["foo"] [(2, [("foo", PyObj.mk 11 true false)])]]).run
          (checkpoint_run [] "1"
            [("UndeserializableClass", PyObj.mk 10 true false),
              ("foo", PyObj.mk 11 true false)]
            ["UndeserializableClass", "foo"]) "1" = Except.ok st ∧
      (∀ k, nsLookup st.ns k =
        nsLookup [("UndeserializableClass", PyObj.mk 10 true false),
          ("foo", PyObj.mk 11 true false)] k) ∧
      st.fallbacked_actions =
        (RestorePlan.mk [
          RAction.load 1 ["UndeserializableClass"]
            [(1, [("UndeserializableClass", PyObj.mk 10 true false)])],
          RAction.load 2 ["foo"]
            [(2, [("foo", PyObj.mk 11 true false)])]]).actions.filter
          (plan_action_fails
            [("UndeserializableClass", PyObj.mk 10 true false),
              ("foo", PyObj.mk 11 true false)]) ∧
      st.fallbacked_actions ≠ []) := by
  apply C3_fallback_recomputation
  · intro k v h
    have hm := nsLookup_mem h
    simp only [List.mem_cons, List.mem_singleton] at hm
    rcases hm with hm | hm | hm
    · rw [(Prod.mk.injEq _ _ _ _).mp hm |>.2]
    · rw [(Prod.mk.injEq _ _ _ _).mp hm |>.2]
    · simp at hm
  · intro n hn
    simp only [List.mem_cons, List.mem_singleton] at hn
    rcases hn with hn | hn
    · subst hn; simp [nsLookup]
    · rcases hn with hn | hn
      · subst hn; simp [nsLookup]
      · simp at hn
  · intro cn names fb h
    simp only [RestorePlan.mk] at h
    rcases List.mem_cons.mp h with h | h
    · injection h with h1 h2 h3
      subst h1; subst h2; subst h3
      refine ⟨by simp,
        by intro n hn; simp only [List.mem_singleton] at hn; subst hn; simp,
        ?_, ?_⟩
      · intro c hc
        simp only [List.mem_singleton] at hc
        subst hc
        intro kv hkv
        simp only [List.mem_singleton] at hkv
        subst hkv
        simp [nsLookup]
      · intro n hn
        simp only [List.mem_singleton] at hn
        subst hn
        simp [run_cells, nsUpdate, nsSet, nsLookup, hasKey]
    · rcases List.mem_cons.mp h with h | h
      · injection h with h1 h2 h3
        subst h1; subst h2; subst h3
        refine ⟨by simp,
          by intro n hn; simp only [List.mem_singleton] at hn; subst hn; simp,
          ?_, ?_⟩
        · intro c hc
          simp only [List.mem_singleton] at hc
          subst hc
          intro kv hkv
          simp only [List.mem_singleton] at hkv
          subst hkv
          simp [nsLookup]
        · intro n hn
          simp only [List.mem_singleton] at hn
          subst hn
          simp [run_cells, nsUpdate, nsSet, nsLookup, hasKey]
      · exact absurd h (by simp)
  · intro cn cell h
    simp only [RestorePlan.mk] at h
    rcases List.mem_cons.mp h with h | h
    · exact absurd h (by simp)
    · rcases List.mem_cons.mp h with h | h
      · exact absurd h (by simp)
      · exact absurd h (by simp)
  · intro k hk
    have := mem_keys_of_nsLookup_isSome hk
    simp only [List.map_cons, List.map_nil, List.mem_cons, List.mem_singleton]
      at this
    rcases this with h | h | h
    · subst h
      exact ⟨RAction.load 1 ["UndeserializableClass"]
          [(1, [("UndeserializableClass", PyObj.mk 10 true false)])],
        by simp, by simp [action_names]⟩
    · subst h
      exact ⟨RAction.load 2 ["foo"] [(2, [("foo", PyObj.mk 11 true false)])],
        by simp, by simp [action_names]⟩
    · simp at h
  · exact ⟨1, ["UndeserializableClass"],
      [(1, [("UndeserializableClass", PyObj.mk 10 true false)])],
      by simp, "UndeserializableClass", by simp,
      PyObj.mk 10 true false, by simp [nsLookup], rfl⟩

/-! ## The commit graph

Modelled from the spec: `kishu/commit_graph.py` is not part of the
sources, only its test is, so `KishuCommitGraph` is modelled from
section 4.1 of the specification (its in-memory view; the fixed-slot
on-disk persistence layer is claim C7's concern).  A node records a
commit id and its parent's id; `step` appends a node whose parent is the
current HEAD; `jump` moves HEAD, appending a fresh root for an unknown
id; `list_history` walks the parent chain newest-first, stopping at the
empty id. -/

structure CommitInfo where
  commit_id : String
  parent_id : String
deriving DecidableEq, Repr

structure KishuCommitGraph where
  nodes : List CommitInfo
  head_id : String
deriving DecidableEq, Repr

def KishuCommitGraph.new_in_memory : KishuCommitGraph := ⟨[], ""⟩

/-- The commit ids present in the graph. -/
def graph_ids (g : KishuCommitGraph) : List String :=
  g.nodes.map (fun n => n.commit_id)

/-- Find the node of a commit id. -/
def find_node : List CommitInfo → String → Option CommitInfo
  | [], _ => none
  | n :: rest, cid => if n.commit_id = cid then some n else find_node rest cid

/-- `step(commit_id)`: append a node whose parent is the current HEAD and
move HEAD to it. -/
def KishuCommitGraph.step (g : KishuCommitGraph) (cid : String) :
    KishuCommitGraph :=
  ⟨g.nodes ++ [⟨cid, g.head_id⟩], cid⟩

/-- `jump(commit_id)`: set HEAD to the commit; an unknown id appends a
node with the empty parent, treating it as a fresh root. -/
def KishuCommitGraph.jump (g : KishuCommitGraph) (cid : String) :
    KishuCommitGraph :=
  if (find_node g.nodes cid).isSome then { g with head_id := cid }
  else ⟨g.nodes ++ [⟨cid, ""⟩], cid⟩

/-- Fuelled walk up the parent chain; `none` when the fuel runs out
before the chain ends. -/
def walk (nodes : List CommitInfo) : Nat → String → Option (List CommitInfo)
  | 0, _ => none
  | fuel + 1, cid =>
    match find_node nodes cid with
    | none => some []
    | some info => (walk nodes fuel info.parent_id).map (fun l => info :: l)

/-- `list_history(commit_id)`: the ancestors of the commit,
newest-first. -/
def KishuCommitGraph.list_history (g : KishuCommitGraph) (cid : String) :
    List CommitInfo :=
  (walk g.nodes (g.nodes.length + 1) cid).getD []

/-- `list_history()` from the current HEAD. -/
def KishuCommitGraph.list_history_head (g : KishuCommitGraph) :
    List CommitInfo :=
  g.list_history g.head_id

/-- `head()`: the current HEAD commit id (empty when unset). -/
def KishuCommitGraph.head (g : KishuCommitGraph) : String := g.head_id

/-- The parent recorded for a commit id. -/
def parent_of (g : KishuCommitGraph) (cid : String) : Option String :=
  (find_node g.nodes cid).map (fun n => n.parent_id)

theorem find_node_append (nodes nodes2 : List CommitInfo) (cid : String) :
    find_node (nodes ++ nodes2) cid =
      match find_node nodes cid with
      | some x => some x
      | none => find_node nodes2 cid := by
  induction nodes with
  | nil => simp [find_node]
  | cons n rest ih =>
    by_cases h : n.commit_id = cid
    · simp [find_node, h]
    · simp [find_node, h, ih]

theorem find_node_eq_none (nodes : List CommitInfo) (cid : String)
    (h : ∀ n ∈ nodes, n.commit_id ≠ cid) : find_node nodes cid = none := by
  induction nodes with
  | nil => rfl
  | cons n rest ih =>
    simp only [find_node, if_neg (h n (List.mem_cons_self _ _))]
    exact ih (fun m hm => h m (List.mem_cons_of_mem _ hm))

theorem find_node_eq_none_of_not_mem (nodes : List CommitInfo) (cid : String)
    (h : cid ∉ nodes.map (fun n => n.commit_id)) : find_node nodes cid = none := by
  apply find_node_eq_none
  intro n hn heq
  exact h (List.mem_map.mpr ⟨n, hn, heq⟩)

theorem find_node_some_mem {nodes : List CommitInfo} {cid : String}
    {info : CommitInfo} (h : find_node nodes cid = some info) :
    info ∈ nodes ∧ info.commit_id = cid := by
  induction nodes with
  | nil => simp [find_node] at h
  | cons n rest ih =>
    by_cases hn : n.commit_id = cid
    · simp only [find_node, if_pos hn] at h
      injection h with h'
      subst h'
      exact ⟨List.mem_cons_self _ _, hn⟩
    · simp only [find_node, if_neg hn] at h
      obtain ⟨h1, h2⟩ := ih h
      exact ⟨List.mem_cons_of_mem _ h1, h2⟩

/-- Every parent pointer refers backwards: a node's parent is the empty
id or a commit already in the graph. -/
def closed_parents (nodes : List CommitInfo) : Prop :=
  ∀ n ∈ nodes, n.parent_id = "" ∨ n.parent_id ∈ nodes.map (fun m => m.commit_id)

/-- A node list built by appending nodes whose parent is the empty id or
an id already present — the shape `step` and `jump` maintain. -/
inductive Backward : List CommitInfo → Prop
  | nil : Backward []
  | snoc (nodes : List CommitInfo) (n : CommitInfo) : Backward nodes →
      (n.parent_id = "" ∨ n.parent_id ∈ nodes.map (fun m => m.commit_id)) →
      Backward (nodes ++ [n])

theorem Backward.closed {nodes : List CommitInfo} (h : Backward nodes) :
    closed_parents nodes := by
  induction h with
  | nil => intro n hn; simp at hn
  | snoc nodes n hb hp ih =>
    intro m hm
    rcases List.mem_append.mp hm with hm | hm
    · rcases ih m hm with h1 | h1
      · exact Or.inl h1
      · refine Or.inr ?_
        rw [List.map_append]
        exact List.mem_append_left _ h1
    · simp only [List.mem_singleton] at hm
      subst hm
      rcases hp with h1 | h1
      · exact Or.inl h1
      · refine Or.inr ?_
        rw [List.map_append]
        exact List.mem_append_left _ h1

theorem walk_succ (nodes : List CommitInfo) (f : Nat) (cid : String) :
    walk nodes (f + 1) cid =
      match find_node nodes cid with
      | none => some []
      | some info => (walk nodes f info.parent_id).map (fun l => info :: l) :=
  rfl

theorem walk_mono {nodes : List CommitInfo} :
    ∀ {f : Nat} {cid : String} {L : List CommitInfo},
      walk nodes f cid = some L → walk nodes (f + 1) cid = some L := by
  intro f
  induction f with
  | zero => intro cid L h; simp [walk] at h
  | succ f ih =>
    intro cid L h
    rw [walk_succ] at h
    rw [walk_succ]
    cases hf : find_node nodes cid with
    | none => rw [hf] at h; exact h
    | some info =>
      rw [hf] at h
      rcases Option.map_eq_some'.mp h with ⟨L', hL', hL⟩
      subst hL
      show Option.map (fun l => info :: l) (walk nodes (f + 1) info.parent_id)
        = some (info :: L')
      rw [ih hL']
      rfl

theorem walk_le {nodes : List CommitInfo} {f f' : Nat} {cid : String}
    {L : List CommitInfo} (hle : f ≤ f') (h : walk nodes f cid = some L) :
    walk nodes f' cid = some L := by
  induction hle with
  | refl => exact h
  | step _ ih => exact walk_mono ih

theorem walk_append {nodes : List CommitInfo} {nn : CommitInfo}
    (hfresh : ∀ n ∈ nodes, n.commit_id ≠ nn.commit_id)
    (hclosed : closed_parents nodes) (hnn : nn.commit_id ≠ "") :
    ∀ {f : Nat} {cid : String} {L : List CommitInfo}, cid ≠ nn.commit_id →
      walk nodes f cid = some L → walk (nodes ++ [nn]) f cid = some L := by
  intro f
  induction f with
  | zero => intro cid L _ h; simp [walk] at h
  | succ f ih =>
    intro cid L hcid h
    rw [walk_succ] at h
    rw [walk_succ, find_node_append]
    cases hf : find_node nodes cid with
    | none =>
      rw [hf] at h
      have hne : ¬ (nn.commit_id = cid) := fun hx => hcid (Eq.symm hx)
      have h2 : find_node [nn] cid = none := by
        simp [find_node, hne]
      rw [h2]
      exact h
    | some info =>
      rw [hf] at h
      rcases Option.map_eq_some'.mp h with ⟨L', hL', hL⟩
      subst hL
      have hparent : info.parent_id ≠ nn.commit_id := by
        obtain ⟨hmem, _⟩ := find_node_some_mem hf
        rcases hclosed info hmem with h1 | h1
        · rw [h1]; exact fun hx => hnn (Eq.symm hx)
        · rcases List.mem_map.mp h1 with ⟨m, hm, hmeq⟩
          rw [← hmeq]
          exact hfresh m hm
      show Option.map (fun l => info :: l)
          (walk (nodes ++ [nn]) f info.parent_id) = some (info :: L')
      rw [ih hparent hL']
      rfl

theorem find_node_isSome_of_mem {nodes : List CommitInfo} {cid : String}
    (h : cid ∈ nodes.map (fun n => n.commit_id)) :
    (find_node nodes cid).isSome := by
  induction nodes with
  | nil => simp at h
  | cons n rest ih =>
    by_cases hn : n.commit_id = cid
    · simp [find_node, hn]
    · simp only [List.map_cons, List.mem_cons] at h
      rcases h with h | h
      · exact absurd h.symm hn
      · simp only [find_node, if_neg hn]
        exact ih h

theorem not_mem_of_find_node_eq_none {nodes : List CommitInfo} {cid : String}
    (h : find_node nodes cid = none) :
    cid ∉ nodes.map (fun n => n.commit_id) := by
  intro hmem
  have := find_node_isSome_of_mem hmem
  rw [h] at this
  simp at this

/-- Fuelled walks on backward-closed node lists always reach the root
within `length + 1` steps. -/
theorem walk_total {nodes : List CommitInfo} (hb : Backward nodes) :
    (nodes.map (fun n => n.commit_id)).Nodup →
    "" ∉ nodes.map (fun n => n.commit_id) →
    ∀ cid, ∃ L, walk nodes (nodes.length + 1) cid = some L := by
  induction hb with
  | nil =>
    intro _ _ cid
    exact ⟨[], by simp [walk, find_node]⟩
  | snoc nodes n hb hp ih =>
    intro hnodup hempty cid
    have hmaps : (nodes ++ [n]).map (fun m => m.commit_id) =
        nodes.map (fun m => m.commit_id) ++ [n.commit_id] := by
      simp
    rw [hmaps] at hnodup hempty
    have hnodup' : (nodes.map (fun m => m.commit_id)).Nodup :=
      hnodup.of_append_left
    have hfresh : n.commit_id ∉ nodes.map (fun m => m.commit_id) := by
      intro hc
      rcases List.nodup_append.mp hnodup with ⟨_, _, hdis⟩
      exact hdis hc (by simp)
    have hempty' : "" ∉ nodes.map (fun m => m.commit_id) := by
      intro hc
      exact hempty (List.mem_append_left _ hc)
    have hnn : n.commit_id ≠ "" := by
      intro hc
      exact hempty (by rw [← hc]; simp)
    have hfresh' : ∀ m ∈ nodes, m.commit_id ≠ n.commit_id := by
      intro m hm heq
      exact hfresh (List.mem_map.mpr ⟨m, hm, heq⟩)
    have hlen : (nodes ++ [n]).length + 1 = (nodes.length + 1) + 1 := by simp
    by_cases hc : cid = n.commit_id
    · subst hc
      rcases hp with hpar | hpar
      · refine ⟨[n], ?_⟩
        rw [hlen, walk_succ, find_node_append,
          find_node_eq_none_of_not_mem nodes _ hfresh]
        have h1 : find_node [n] n.commit_id = some n := by simp [find_node]
        rw [h1]
        have h2 : walk (nodes ++ [n]) (nodes.length + 1) n.parent_id
            = some [] := by
          cases hlen2 : nodes.length + 1 with
          | zero => simp at hlen2
          | succ f =>
            rw [walk_succ]
            have : find_node (nodes ++ [n]) n.parent_id = none := by
              apply find_node_eq_none
              intro m hm heq
              rcases List.mem_append.mp hm with hm | hm
              · rw [hpar] at heq
                exact hempty' (by rw [← heq]; exact List.mem_map.mpr ⟨m, hm, rfl⟩)
              · simp only [List.mem_singleton] at hm
                subst hm
                rw [hpar] at heq
                exact hnn heq
            rw [this]
        show Option.map (fun l => n :: l)
          (walk (nodes ++ [n]) (nodes.length + 1) n.parent_id) = some [n]
        rw [h2]
        rfl
      · obtain ⟨L, hL⟩ := ih hnodup' hempty' n.parent_id
        refine ⟨n :: L, ?_⟩
        rw [hlen, walk_succ, find_node_append,
          find_node_eq_none_of_not_mem nodes _ hfresh]
        have h1 : find_node [n] n.commit_id = some n := by simp [find_node]
        rw [h1]
        have hpar_ne : n.parent_id ≠ n.commit_id := by
          intro heq
          exact hfresh (heq ▸ hpar)
        have h2 := walk_append hfresh' hb.closed hnn hpar_ne hL
        show Option.map (fun l => n :: l)
          (walk (nodes ++ [n]) (nodes.length + 1) n.parent_id) = some (n :: L)
        rw [h2]
        rfl
    · obtain ⟨L, hL⟩ := ih hnodup' hempty' cid
      refine ⟨L, ?_⟩
      rw [hlen]
      exact walk_mono (walk_append hfresh' hb.closed hnn hc hL)

/-- The well-formedness the graph operations maintain: backward parent
pointers, unique commit ids, no empty commit id, and a HEAD that is empty
or present. -/
def GoodGraph (g : KishuCommitGraph) : Prop :=
  Backward g.nodes ∧ (graph_ids g).Nodup ∧ "" ∉ graph_ids g ∧
    (g.head_id = "" ∨ g.head_id ∈ graph_ids g)

theorem nodup_snoc_ids {l : List String} {c : String}
    (h1 : l.Nodup) (h2 : c ∉ l) : (l ++ [c]).Nodup := by
  rw [List.nodup_append]
  exact ⟨h1, List.nodup_singleton c, by
    intro a ha hc
    simp only [List.mem_singleton] at hc
    subst hc
    exact h2 ha⟩

theorem GoodGraph.step_good {g : KishuCommitGraph} {c : String}
    (hg : GoodGraph g) (hc1 : c ≠ "") (hc2 : c ∉ graph_ids g) :
    GoodGraph (g.step c) := by
  obtain ⟨hb, hnodup, hempty, hhead⟩ := hg
  have hids : graph_ids (g.step c) = graph_ids g ++ [c] := by
    simp [graph_ids, KishuCommitGraph.step]
  refine ⟨Backward.snoc g.nodes ⟨c, g.head_id⟩ hb hhead, ?_, ?_, ?_⟩
  · rw [hids]
    exact nodup_snoc_ids hnodup hc2
  · rw [hids]
    intro hmem
    rcases List.mem_append.mp hmem with h | h
    · exact hempty h
    · simp only [List.mem_singleton] at h
      exact hc1 h.symm
  · refine Or.inr ?_
    rw [hids]
    show c ∈ graph_ids g ++ [c]
    simp

theorem GoodGraph.jump_good {g : KishuCommitGraph} {c : String}
    (hg : GoodGraph g) (hc1 : c ≠ "") : GoodGraph (g.jump c) := by
  obtain ⟨hb, hnodup, hempty, hhead⟩ := hg
  cases hf : find_node g.nodes c with
  | some info =>
    have hjump : g.jump c = { g with head_id := c } := by
      simp [KishuCommitGraph.jump, hf]
    rw [hjump]
    refine ⟨hb, hnodup, hempty, Or.inr ?_⟩
    obtain ⟨hmem, heq⟩ := find_node_some_mem hf
    exact List.mem_map.mpr ⟨info, hmem, heq⟩
  | none =>
    have hjump : g.jump c = ⟨g.nodes ++ [⟨c, ""⟩], c⟩ := by
      simp [KishuCommitGraph.jump, hf]
    rw [hjump]
    have hc2 : c ∉ graph_ids g := not_mem_of_find_node_eq_none hf
    have hids : graph_ids ⟨g.nodes ++ [⟨c, ""⟩], c⟩ = graph_ids g ++ [c] := by
      simp [graph_ids]
    refine ⟨Backward.snoc g.nodes ⟨c, ""⟩ hb (Or.inl rfl), ?_, ?_, ?_⟩
    · rw [hids]
      exact nodup_snoc_ids hnodup hc2
    · rw [hids]
      intro hmem
      rcases List.mem_append.mp hmem with h | h
      · exact hempty h
      · simp only [List.mem_singleton] at h
        exact hc1 h.symm
    · refine Or.inr ?_
      rw [hids]
      simp

theorem walk_graph_total {g : KishuCommitGraph} (hg : GoodGraph g)
    (cid : String) :
    ∃ L, walk g.nodes (g.nodes.length + 1) cid = some L :=
  walk_total hg.1 hg.2.1 hg.2.2.1 cid

theorem list_history_of_walk {g : KishuCommitGraph} {cid : String}
    {L : List CommitInfo}
    (h : walk g.nodes (g.nodes.length + 1) cid = some L) :
    g.list_history cid = L := by
  simp [KishuCommitGraph.list_history, h]

/-- Walking a graph extended with a fresh node, from the fresh node:
one step to the node and then the old walk from its parent. -/
theorem walk_snoc (nodes : List CommitInfo) (nn : CommitInfo)
    (hfresh : nn.commit_id ∉ nodes.map (fun n => n.commit_id))
    (hclosed : closed_parents nodes) (hnn : nn.commit_id ≠ "")
    {L : List CommitInfo}
    (hL : walk nodes (nodes.length + 1) nn.parent_id = some L)
    (hpar : nn.parent_id ≠ nn.commit_id) :
    walk (nodes ++ [nn]) ((nodes ++ [nn]).length + 1) nn.commit_id
      = some (nn :: L) := by
  have hlen : (nodes ++ [nn]).length + 1 = (nodes.length + 1) + 1 := by simp
  rw [hlen, walk_succ, find_node_append,
    find_node_eq_none_of_not_mem nodes _ hfresh]
  have h1 : find_node [nn] nn.commit_id = some nn := by simp [find_node]
  rw [h1]
  have hfresh' : ∀ m ∈ nodes, m.commit_id ≠ nn.commit_id := by
    intro m hm heq
    exact hfresh (List.mem_map.mpr ⟨m, hm, heq⟩)
  show Option.map (fun l => nn :: l)
    (walk (nodes ++ [nn]) (nodes.length + 1) nn.parent_id) = some (nn :: L)
  rw [walk_append hfresh' hclosed hnn hpar hL]
  rfl

/-- Walking a graph extended with a fresh node, from any other id, is the
old walk. -/
theorem walk_snoc_old (nodes : List CommitInfo) (nn : CommitInfo)
    (hfresh : nn.commit_id ∉ nodes.map (fun n => n.commit_id))
    (hclosed : closed_parents nodes) (hnn : nn.commit_id ≠ "")
    {cid : String} {L : List CommitInfo} (hcid : cid ≠ nn.commit_id)
    (hL : walk nodes (nodes.length + 1) cid = some L) :
    walk (nodes ++ [nn]) ((nodes ++ [nn]).length + 1) cid = some L := by
  have hfresh' : ∀ m ∈ nodes, m.commit_id ≠ nn.commit_id := by
    intro m hm heq
    exact hfresh (List.mem_map.mpr ⟨m, hm, heq⟩)
  have hlen : (nodes ++ [nn]).length + 1 = (nodes.length + 1) + 1 := by simp
  rw [hlen]
  exact walk_mono (walk_append hfresh' hclosed hnn hcid hL)

/-- The history `list_history` must produce after stepping the given
commits in order on top of a parent: newest first, each node's parent the
previous commit, the oldest parented at `parent`. -/
def expected_hist : String → List String → List CommitInfo
  | _, [] => []
  | parent, c :: rest => expected_hist c rest ++ [⟨c, parent⟩]

theorem getLastD_snoc {α : Type} (l : List α) (a d : α) :
    (l ++ [a]).getLastD d = a := by
  induction l generalizing d with
  | nil => rfl
  | cons x rest ih =>
    show (x :: (rest ++ [a])).getLastD d = a
    rw [List.getLastD_cons]
    exact ih x

theorem expected_hist_snoc (p : String) (cs : List String) (c : String) :
    expected_hist p (cs ++ [c]) =
      ⟨c, cs.getLastD p⟩ :: expected_hist p cs := by
  induction cs generalizing p with
  | nil => rfl
  | cons a rest ih =>
    show expected_hist a (rest ++ [c]) ++ [⟨a, p⟩] = _
    rw [ih a]
    rw [List.getLastD_cons]
    rfl

theorem foldl_step_spec :
    ∀ (cs : List String), cs.Nodup → "" ∉ cs →
      GoodGraph (cs.foldl KishuCommitGraph.step KishuCommitGraph.new_in_memory) ∧
      (cs.foldl KishuCommitGraph.step KishuCommitGraph.new_in_memory).head_id
        = cs.getLastD "" ∧
      graph_ids (cs.foldl KishuCommitGraph.step KishuCommitGraph.new_in_memory)
        = cs ∧
      walk (cs.foldl KishuCommitGraph.step KishuCommitGraph.new_in_memory).nodes
        ((cs.foldl KishuCommitGraph.step
          KishuCommitGraph.new_in_memory).nodes.length + 1)
        (cs.foldl KishuCommitGraph.step KishuCommitGraph.new_in_memory).head_id
        = some (expected_hist "" cs) := by
  intro cs
  induction cs using List.reverseRecOn with
  | nil =>
    intro _ _
    refine ⟨⟨Backward.nil, by simp [graph_ids, KishuCommitGraph.new_in_memory],
      by simp [graph_ids, KishuCommitGraph.new_in_memory], Or.inl rfl⟩,
      rfl, rfl, ?_⟩
    simp [KishuCommitGraph.new_in_memory, walk, find_node, expected_hist]
  | append_singleton ds c ih =>
    intro hnodup hempty
    have hdsnodup : ds.Nodup := hnodup.of_append_left
    have hcds : c ∉ ds := by
      rcases List.nodup_append.mp hnodup with ⟨_, _, hdis⟩
      intro hc
      exact hdis hc (by simp)
    have hdse : "" ∉ ds := fun hc => hempty (List.mem_append_left _ hc)
    have hce : c ≠ "" := by
      intro hc
      exact hempty (by rw [← hc]; simp)
    obtain ⟨ihg, ihhead, ihids, ihwalk⟩ := ih hdsnodup hdse
    have hfoldl : (ds ++ [c]).foldl KishuCommitGraph.step
        KishuCommitGraph.new_in_memory =
        (ds.foldl KishuCommitGraph.step KishuCommitGraph.new_in_memory).step c := by
      rw [List.foldl_append]
      rfl
    set g := ds.foldl KishuCommitGraph.step KishuCommitGraph.new_in_memory
      with hgdef
    have hcid : c ∉ graph_ids g := by
      rw [ihids]
      exact hcds
    have hgood : GoodGraph (g.step c) := GoodGraph.step_good ihg hce hcid
    have hhead_ne : g.head_id ≠ c := by
      rcases ihg.2.2.2 with h | h
      · rw [h]; exact fun hx => hce hx.symm
      · intro hx
        rw [hx] at h
        exact hcid h
    have hwalkstep : walk (g.nodes ++ [CommitInfo.mk c g.head_id])
        ((g.nodes ++ [CommitInfo.mk c g.head_id]).length + 1) c
        = some (CommitInfo.mk c g.head_id :: expected_hist "" ds) :=
      walk_snoc g.nodes (CommitInfo.mk c g.head_id)
        (by simpa [graph_ids] using hcid) ihg.1.closed hce ihwalk hhead_ne
    rw [hfoldl]
    refine ⟨hgood, ?_, ?_, ?_⟩
    · show c = (ds ++ [c]).getLastD ""
      rw [getLastD_snoc]
    · show graph_ids (g.step c) = ds ++ [c]
      simp [graph_ids, KishuCommitGraph.step]
      rw [show List.map (fun n => n.commit_id) g.nodes = graph_ids g from rfl,
        ihids]
    · rw [expected_hist_snoc, ← ihhead]
      exact hwalkstep

theorem getLast?_cons_exists {α : Type} (a : α) (l : List α) :
    ∃ r, (a :: l).getLast? = some r := by
  induction l generalizing a with
  | nil => exact ⟨a, rfl⟩
  | cons b m ih =>
    rw [List.getLast?_cons_cons]
    exact ih b

/-- A completed walk on a backward-closed node list ends at a root: the
last node of a nonempty history has the empty parent id. -/
theorem walk_last {nodes : List CommitInfo} (hclosed : closed_parents nodes) :
    ∀ {f : Nat} {cid : String} {L : List CommitInfo}, walk nodes f cid = some L →
      ∀ r, L.getLast? = some r → r.parent_id = "" := by
  intro f
  induction f with
  | zero => intro cid L h; simp [walk] at h
  | succ f ih =>
    intro cid L h r hr
    rw [walk_succ] at h
    cases hf : find_node nodes cid with
    | none =>
      rw [hf] at h
      injection h with h'
      subst h'
      simp at hr
    | some info =>
      rw [hf] at h
      rcases Option.map_eq_some'.mp h with ⟨L', hL', hLeq⟩
      subst hLeq
      cases L' with
      | nil =>
        have hri : r = info := by simpa using hr.symm
        subst hri
        cases f with
        | zero => simp [walk] at hL'
        | succ f2 =>
          rw [walk_succ] at hL'
          cases hfp : find_node nodes r.parent_id with
          | some q =>
            rw [hfp] at hL'
            rcases Option.map_eq_some'.mp hL' with ⟨L2, _, hcontra⟩
            exact absurd hcontra.symm (by simp)
          | none =>
            have hmem := (find_node_some_mem hf).1
            rcases hclosed r hmem with hp1 | hp1
            · exact hp1
            · exact absurd (find_node_isSome_of_mem hp1) (by simp [hfp])
      | cons x xs =>
        have hr' : (x :: xs).getLast? = some r := by
          rw [List.getLast?_cons_cons] at hr
          exact hr
        exact ih hL' r hr'

/-- The graph built by stepping the given commits, in order, on an empty
graph — the construction of `TestKishuCommitGraph`. -/
def steps_from_empty (cs : List String) : KishuCommitGraph :=
  cs.foldl KishuCommitGraph.step KishuCommitGraph.new_in_memory

/-- C4: on the graph built by stepping distinct nonempty commit ids from
empty, (1) `list_history()` returns the commits newest-first with each
parent the previous commit and the first commit parented at the empty
id; (2) after `jump(x)` to an existing commit, `step(y)` records `x` as
`y`'s parent and `list_history(y)` ends at a node with the empty parent
(the root); (3) `jump` to an unknown id appends a fresh root whose
history is just itself, and the history of every previously created
commit is unchanged. -/
theorem C4_commit_graph (cs : List String) (h1 : cs.Nodup) (h2 : "" ∉ cs) :
    (steps_from_empty cs).list_history_head = expected_hist "" cs ∧
    (∀ x y, x ∈ cs → y ∉ cs → y ≠ "" →
      parent_of (((steps_from_empty cs).jump x).step y) y = some x ∧
      ∃ r, ((((steps_from_empty cs).jump x).step y).list_history y).getLast?
          = some r ∧ r.parent_id = "") ∧
    (∀ u, u ∉ cs → u ≠ "" →
      ((steps_from_empty cs).jump u).list_history_head = [CommitInfo.mk u ""] ∧
      ∀ c ∈ cs, ((steps_from_empty cs).jump u).list_history c
        = (steps_from_empty cs).list_history c) := by
  obtain ⟨hg, hhead, hids, hwalk⟩ := foldl_step_spec cs h1 h2
  rw [show List.foldl KishuCommitGraph.step KishuCommitGraph.new_in_memory cs
    = steps_from_empty cs from rfl] at hg hhead hids hwalk
  refine ⟨list_history_of_walk hwalk, ?_, ?_⟩
  · -- jump to an existing commit, then step
    intro x y hx hy hy'
    have hxids : x ∈ graph_ids (steps_from_empty cs) := by rw [hids]; exact hx
    have hyids : y ∉ graph_ids (steps_from_empty cs) := by rw [hids]; exact hy
    have hxne : x ≠ "" := fun hc => h2 (hc ▸ hx)
    have hxy : x ≠ y := fun hc => hy (hc ▸ hx)
    have hjump : (steps_from_empty cs).jump x =
        { steps_from_empty cs with head_id := x } := by
      simp [KishuCommitGraph.jump, find_node_isSome_of_mem hxids]
    have hg2eq : ((steps_from_empty cs).jump x).step y =
        ⟨(steps_from_empty cs).nodes ++ [CommitInfo.mk y x], y⟩ := by
      rw [hjump]
      rfl
    obtain ⟨Lx, hLx⟩ := walk_graph_total hg x
    have hw2 : walk ((steps_from_empty cs).nodes ++ [CommitInfo.mk y x])
        (((steps_from_empty cs).nodes ++ [CommitInfo.mk y x]).length + 1) y
        = some (CommitInfo.mk y x :: Lx) :=
      walk_snoc (steps_from_empty cs).nodes (CommitInfo.mk y x)
        (by simpa [graph_ids] using hyids) hg.1.closed hy' hLx hxy
    have hgood2 : GoodGraph (((steps_from_empty cs).jump x).step y) :=
      GoodGraph.step_good (GoodGraph.jump_good hg hxne)
        hy' (by rw [hjump]; exact hyids)
    constructor
    · rw [hg2eq]
      show ((find_node ((steps_from_empty cs).nodes ++ [CommitInfo.mk y x]) y).map
        (fun n => n.parent_id)) = some x
      rw [find_node_append,
        find_node_eq_none_of_not_mem _ _ (by simpa [graph_ids] using hyids)]
      simp [find_node]
    · have hhist : (((steps_from_empty cs).jump x).step y).list_history y
          = CommitInfo.mk y x :: Lx := by
        rw [hg2eq]
        exact list_history_of_walk hw2
      rw [hhist]
      obtain ⟨r, hr⟩ := getLast?_cons_exists (CommitInfo.mk y x) Lx
      refine ⟨r, hr, ?_⟩
      have hclosed2 : closed_parents
          ((steps_from_empty cs).nodes ++ [CommitInfo.mk y x]) := by
        have := hgood2.1.closed
        rw [hg2eq] at this
        exact this
      exact walk_last hclosed2 hw2 r (by rw [← hhist] at hr ⊢; exact hr)
  · -- jump to an unknown commit
    intro u hu hu'
    have huids : u ∉ graph_ids (steps_from_empty cs) := by rw [hids]; exact hu
    have hfind : find_node (steps_from_empty cs).nodes u = none :=
      find_node_eq_none_of_not_mem _ _ (by simpa [graph_ids] using huids)
    have hjump : (steps_from_empty cs).jump u =
        ⟨(steps_from_empty cs).nodes ++ [CommitInfo.mk u ""], u⟩ := by
      simp [KishuCommitGraph.jump, hfind]
    have hroot : walk (steps_from_empty cs).nodes
        ((steps_from_empty cs).nodes.length + 1) "" = some [] := by
      rw [walk_succ, find_node_eq_none_of_not_mem _ _ hg.2.2.1]
    have hw3 : walk ((steps_from_empty cs).nodes ++ [CommitInfo.mk u ""])
        (((steps_from_empty cs).nodes ++ [CommitInfo.mk u ""]).length + 1) u
        = some [CommitInfo.mk u ""] :=
      walk_snoc (steps_from_empty cs).nodes (CommitInfo.mk u "")
        (by simpa [graph_ids] using huids) hg.1.closed hu' hroot
        (fun hc => hu' hc.symm)
    constructor
    · show ((steps_from_empty cs).jump u).list_history
        ((steps_from_empty cs).jump u).head_id = _
      rw [hjump]
      exact list_history_of_walk hw3
    · intro c hc
      have hcu : c ≠ u := fun hceq => hu (hceq ▸ hc)
      obtain ⟨L, hL⟩ := walk_graph_total hg c
      have hw4 : walk ((steps_from_empty cs).nodes ++ [CommitInfo.mk u ""])
          (((steps_from_empty cs).nodes ++ [CommitInfo.mk u ""]).length + 1) c
          = some L :=
        walk_snoc_old (steps_from_empty cs).nodes (CommitInfo.mk u "")
          (by simpa [graph_ids] using huids) hg.1.closed hu' hcu hL
      rw [hjump]
      rw [show (⟨(steps_from_empty cs).nodes ++ [CommitInfo.mk u ""], u⟩ :
          KishuCommitGraph).list_history c = L from list_history_of_walk hw4]
      rw [list_history_of_walk hL]

/-- C4 witness: the `test_common` scenario — step 1, 2, 3; jump to the
existing commit 1 and step 4; jump to the unknown id A. -/
theorem C4_witness :
    (["1", "2", "3"] : List String).Nodup ∧
    "" ∉ (["1", "2", "3"] : List String) ∧
    ("1" : String) ∈ (["1", "2", "3"] : List String) ∧
    ("4" : String) ∉ (["1", "2", "3"] : List String) ∧
    ("A" : String) ∉ (["1", "2", "3"] : List String) ∧
    (steps_from_empty ["1", "2", "3"]).list_history_head
      = expected_hist "" ["1", "2", "3"] ∧
    (parent_of (((steps_from_empty ["1", "2", "3"]).jump "1").step "4") "4"
        = some "1" ∧
      ∃ r, ((((steps_from_empty ["1", "2", "3"]).jump "1").step "4").list_history
          "4").getLast? = some r ∧ r.parent_id = "") ∧
    (((steps_from_empty ["1", "2", "3"]).jump "A").list_history_head
        = [CommitInfo.mk "A" ""] ∧
      ∀ c ∈ (["1", "2", "3"] : List String),
        ((steps_from_empty ["1", "2", "3"]).jump "A").list_history c
          = (steps_from_empty ["1", "2", "3"]).list_history c) :=
  ⟨by decide, by decide, by decide, by decide, by decide,
    (C4_commit_graph ["1", "2", "3"] (by decide) (by decide)).1,
    (C4_commit_graph ["1", "2", "3"] (by decide) (by decide)).2.1 "1" "4"
      (by decide) (by decide) (by decide),
    (C4_commit_graph ["1", "2", "3"] (by decide) (by decide)).2.2 "A"
      (by decide) (by decide)⟩

/-! ## Commit node fixed-slot serialization (claim C7)

Modelled from the spec: `kishu/commit_graph.py`'s `CommitNode` on-disk
record is not part of the sources, only its test is.  Section 3 of the
specification fixes the interface: a node `{commit_id, parent_id,
position, parent_position}` serializes into a fixed-width slot of
`NODE_SIZE` bytes, overly-long ids are rejected with an error, and
(de)serialization is round-trip exact.  Bytes are modelled as naturals;
ids are length-prefixed, positions take one cell per coordinate, and the
slot is zero-padded. -/

def NODE_SIZE : Nat := 128

structure CommitNode where
  commit_id : String
  parent_id : String
  position : Nat × Nat
  parent_position : Nat × Nat
deriving DecidableEq, Repr

/-- The meaningful bytes of a node record: both ids length-prefixed, then
the two positions. -/
def node_payload (n : CommitNode) : List Nat :=
  n.commit_id.length :: (n.commit_id.data.map Char.toNat ++
    (n.parent_id.length :: (n.parent_id.data.map Char.toNat ++
      [n.position.1, n.position.2, n.parent_position.1,
        n.parent_position.2])))

/-- Serialize into the fixed slot, zero-padded; fail when the payload
exceeds `NODE_SIZE`. -/
def CommitNode.serialize (n : CommitNode) : Except String (List Nat) :=
  if (node_payload n).length ≤ NODE_SIZE then
    Except.ok (node_payload n ++
      List.replicate (NODE_SIZE - (node_payload n).length) 0)
  else Except.error "CommitNode is too large"

/-- Read a node record back from a slot. -/
def CommitNode.deserialize (bs : List Nat) : CommitNode :=
  let l1 := bs.headD 0
  let cid := ((bs.drop 1).take l1).map Char.ofNat
  let rest := bs.drop (1 + l1)
  let l2 := rest.headD 0
  let pid := ((rest.drop 1).take l2).map Char.ofNat
  let rest2 := rest.drop (1 + l2)
  { commit_id := String.mk cid,
    parent_id := String.mk pid,
    position := (rest2.getD 0 0, rest2.getD 1 0),
    parent_position := (rest2.getD 2 0, rest2.getD 3 0) }

theorem map_toNat_ofNat (l : List Char) :
    (l.map Char.toNat).map Char.ofNat = l := by
  rw [List.map_map]
  have hc : ∀ a ∈ l, (Char.ofNat ∘ Char.toNat) a = id a := by
    intro a _
    simp [Char.ofNat_toNat]
  rw [List.map_congr_left hc, List.map_id]

theorem string_mk_data (s : String) : String.mk s.data = s := by
  cases s
  rfl

/-- Deserializing the payload followed by anything recovers the node. -/
theorem deserialize_payload_append (n : CommitNode) (pad : List Nat) :
    CommitNode.deserialize (node_payload n ++ pad) = n := by
  have hA : (n.commit_id.data.map Char.toNat).length = n.commit_id.length := by
    simp [List.length_map]
  have hB : (n.parent_id.data.map Char.toNat).length = n.parent_id.length := by
    simp [List.length_map]
  have hshape : node_payload n ++ pad
      = n.commit_id.length :: ((n.commit_id.data.map Char.toNat) ++
        (n.parent_id.length :: ((n.parent_id.data.map Char.toNat) ++
          (n.position.1 :: n.position.2 :: n.parent_position.1 ::
            n.parent_position.2 :: pad)))) := by
    simp [node_payload]
  rw [hshape]
  unfold CommitNode.deserialize
  have h1 : (n.commit_id.length :: ((n.commit_id.data.map Char.toNat) ++
      (n.parent_id.length :: ((n.parent_id.data.map Char.toNat) ++
        (n.position.1 :: n.position.2 :: n.parent_position.1 ::
          n.parent_position.2 :: pad))))).headD 0 = n.commit_id.length := rfl
  have h2 : ((n.commit_id.length :: ((n.commit_id.data.map Char.toNat) ++
      (n.parent_id.length :: ((n.parent_id.data.map Char.toNat) ++
        (n.position.1 :: n.position.2 :: n.parent_position.1 ::
          n.parent_position.2 :: pad))))).drop 1).take n.commit_id.length
      = n.commit_id.data.map Char.toNat := by
    show ((n.commit_id.data.map Char.toNat) ++ _).take n.commit_id.length = _
    rw [← hA]
    exact List.take_left _ _
  have h3 : (n.commit_id.length :: ((n.commit_id.data.map Char.toNat) ++
      (n.parent_id.length :: ((n.parent_id.data.map Char.toNat) ++
        (n.position.1 :: n.position.2 :: n.parent_position.1 ::
          n.parent_position.2 :: pad))))).drop (1 + n.commit_id.length)
      = n.parent_id.length :: ((n.parent_id.data.map Char.toNat) ++
        (n.position.1 :: n.position.2 :: n.parent_position.1 ::
          n.parent_position.2 :: pad)) := by
    rw [Nat.add_comm 1 n.commit_id.length, List.drop_succ_cons, ← hA]
    exact List.drop_left _ _
  have h4 : ((n.parent_id.length :: ((n.parent_id.data.map Char.toNat) ++
      (n.position.1 :: n.position.2 :: n.parent_position.1 ::
        n.parent_position.2 :: pad))).drop 1).take n.parent_id.length
      = n.parent_id.data.map Char.toNat := by
    show ((n.parent_id.data.map Char.toNat) ++ _).take n.parent_id.length = _
    rw [← hB]
    exact List.take_left _ _
  have h5 : (n.parent_id.length :: ((n.parent_id.data.map Char.toNat) ++
      (n.position.1 :: n.position.2 :: n.parent_position.1 ::
        n.parent_position.2 :: pad))).drop (1 + n.parent_id.length)
      = n.position.1 :: n.position.2 :: n.parent_position.1 ::
        n.parent_position.2 :: pad := by
    rw [Nat.add_comm 1 n.parent_id.length, List.drop_succ_cons, ← hB]
    exact List.drop_left _ _
  simp only [List.headD_cons, h2, h3, h4, h5, map_toNat_ofNat, string_mk_data,
    List.getD_cons_zero, List.getD_cons_succ, Prod.mk.eta]

/-- C7: a commit node whose payload fits the fixed slot serializes to
exactly `NODE_SIZE` bytes and deserializes back to an identical node
(same commit id, parent id, position and parent position); a node whose
payload exceeds the slot fails to serialize with the "too large"
error. -/
theorem C7_commit_node_roundtrip (n : CommitNode) :
    ((node_payload n).length ≤ NODE_SIZE →
      ∃ bs, n.serialize = Except.ok bs ∧ bs.length = NODE_SIZE ∧
        CommitNode.deserialize bs = n) ∧
    (NODE_SIZE < (node_payload n).length →
      n.serialize = Except.error "CommitNode is too large") := by
  constructor
  · intro h
    refine ⟨node_payload n ++
      List.replicate (NODE_SIZE - (node_payload n).length) 0, ?_, ?_, ?_⟩
    · simp [CommitNode.serialize, h]
    · simp only [List.length_append, List.length_replicate]
      omega
    · exact deserialize_payload_append n _
  · intro h
    have h' : ¬ ((node_payload n).length ≤ NODE_SIZE) := by omega
    simp [CommitNode.serialize, h']

set_option maxRecDepth 8192 in
/-- C7 witness: the node `("1030", "1001", (0, 1), (1, 20))` from the
round-trip test rows, and the "too large" rejection at a 130-character
commit id. -/
theorem C7_witness :
    (node_payload (CommitNode.mk "1030" "1001" (0, 1) (1, 20))).length
        ≤ NODE_SIZE ∧
    (∃ bs, (CommitNode.mk "1030" "1001" (0, 1) (1, 20)).serialize
        = Except.ok bs ∧ bs.length = NODE_SIZE ∧
      CommitNode.deserialize bs = CommitNode.mk "1030" "1001" (0, 1) (1, 20)) ∧
    NODE_SIZE < (node_payload (CommitNode.mk
      (String.mk (List.replicate 130 'a')) "" (0, 0) (0, 0))).length ∧
    (CommitNode.mk (String.mk (List.replicate 130 'a')) ""
        (0, 0) (0, 0)).serialize = Except.error "CommitNode is too large" :=
  ⟨by decide, (C7_commit_node_roundtrip _).1 (by decide), by decide,
    (C7_commit_node_roundtrip _).2 (by decide)⟩

/-! ## Commit id lookup by prefix (claim C5)

`KishuCommit.keys_like` runs the SQL query
`select commit_id from commit_entry where commit_id LIKE ?` with the
parameter `commit_id_like + "%"`.  SQLite's `LIKE` treats `%` as
matching any character sequence and `_` as matching any single
character, and compares other characters ASCII-case-insensitively.
`KishuForJupyter.disambiguate_commit` resolves an abbreviated id with
it. -/

/-- SQLite's ASCII case folding. -/
def lower_char (c : Char) : Char :=
  if 'A' ≤ c ∧ c ≤ 'Z' then Char.ofNat (c.toNat + 32) else c

/-- SQLite `LIKE` pattern matching over character lists: `%` matches any
span, `_` any one character, anything else itself up to ASCII case. -/
def like_match : List Char → List Char → Bool
  | [], s => s.isEmpty
  | p :: ps, s =>
    if p = '%' then
      (List.range (s.length + 1)).any (fun k => like_match ps (s.drop k))
    else
      match s with
      | [] => false
      | c :: s2 =>
        if p = '_' then like_match ps s2
        else (lower_char p == lower_char c) && like_match ps s2

/-- `KishuCommit.keys_like`: the stored commit ids matching
`commit_id_like + "%"` as a SQL LIKE pattern. -/
def keys_like (ids : List String) (commit_id_like : String) : List String :=
  ids.filter (fun cid => like_match (commit_id_like.data ++ ['%']) cid.data)

inductive ResolveErr where
  | not_found
  | ambiguous
deriving DecidableEq, Repr

/-- `KishuForJupyter.disambiguate_commit`: resolve an abbreviated commit
id through `keys_like`; no candidate is an error, an exact match wins,
several candidates without an exact match is ambiguous. -/
def disambiguate_commit (ids : List String) (commit_id : String) :
    Except ResolveErr String :=
  let possible := keys_like ids commit_id
  if possible.length = 0 then Except.error ResolveErr.not_found
  else if possible.contains commit_id then Except.ok commit_id
  else if 1 < possible.length then Except.error ResolveErr.ambiguous
  else Except.ok (possible.headD "")

/-- A character the LIKE pattern treats literally and case-exactly: not a
wildcard and not an ASCII capital. -/
def plain_char (c : Char) : Bool :=
  !(c == '%') && !(c == '_') && !(decide ('A' ≤ c) && decide (c ≤ 'Z'))

def plain_string (s : String) : Bool := s.data.all plain_char

theorem lower_char_eq_self {c : Char} (h : plain_char c = true) :
    lower_char c = c := by
  unfold plain_char at h
  unfold lower_char
  rw [if_neg]
  intro hc
  simp only [Bool.and_eq_true, Bool.not_eq_true'] at h
  rcases h with ⟨_, h3⟩
  rw [decide_eq_true hc.1, decide_eq_true hc.2] at h3
  simp at h3

theorem like_match_plain (p : List Char) :
    ∀ (s : List Char), p.all plain_char = true → s.all plain_char = true →
      like_match (p ++ ['%']) s = p.isPrefixOf s := by
  induction p with
  | nil =>
    intro s _ _
    show like_match ('%' :: []) s = List.isPrefixOf [] s
    simp only [like_match]
    rw [if_pos trivial,
      (by cases s <;> rfl : List.isPrefixOf ([] : List Char) s = true),
      List.any_eq_true]
    exact ⟨s.length, List.mem_range.mpr (Nat.lt_succ_self _),
      by simp [List.drop_length]⟩
  | cons c ps ih =>
    intro s hp hs
    simp only [List.all_cons, Bool.and_eq_true] at hp
    obtain ⟨hc, hps⟩ := hp
    have hcpct : ¬ (c = '%') := by
      intro hx
      unfold plain_char at hc
      rw [hx] at hc
      simp at hc
    have hcund : ¬ (c = '_') := by
      intro hx
      unfold plain_char at hc
      rw [hx] at hc
      simp at hc
    cases s with
    | nil =>
      show like_match (c :: (ps ++ ['%'])) [] = _
      simp only [like_match, if_neg hcpct]
      rfl
    | cons d s2 =>
      simp only [List.all_cons, Bool.and_eq_true] at hs
      obtain ⟨hd, hs2⟩ := hs
      show like_match (c :: (ps ++ ['%'])) (d :: s2) = _
      simp only [like_match, if_neg hcpct, if_neg hcund]
      rw [lower_char_eq_self hc, lower_char_eq_self hd, ih s2 hps hs2]
      rfl

theorem keys_like_sub {ids : List String} {p cid : String}
    (h : cid ∈ keys_like ids p) : cid ∈ ids :=
  (List.mem_filter.mp h).1

/-- C5 counterexample: the claim "keys_like(p) returns exactly the
stored ids with prefix p" fails as stated, because the SQL `LIKE`
pattern gives `_` (and `%`) wildcard meaning: with one stored id "abc"
and p = "a_", `keys_like` returns "abc" although "a_" is not a prefix of
"abc" (and resolution then silently succeeds on it). -/
theorem C5_counterexample :
    keys_like ["abc"] "a_" = ["abc"] ∧
    ("a_".data.isPrefixOf "abc".data) = false ∧
    disambiguate_commit ["abc"] "a_" = Except.ok "abc" :=
  ⟨by decide, by decide, by rfl⟩

/-- C5 amended: for stored ids and a query containing no SQL wildcard
(`%`, `_`) and no ASCII capital (in particular the lowercase-hex and
`session:counter` ids the system generates), `keys_like(p)` returns
exactly the ids with prefix `p`; and disambiguation behaves as claimed:
a stored id resolves to itself even when others share the prefix, no
candidate raises not-found, and several candidates without an exact
match raise ambiguous. -/
theorem C5_keys_like_disambiguation (ids : List String) (p : String)
    (hp : plain_string p = true)
    (hids : ∀ cid ∈ ids, plain_string cid = true) :
    keys_like ids p = ids.filter (fun cid => p.data.isPrefixOf cid.data) ∧
    (p ∈ ids → disambiguate_commit ids p = Except.ok p) ∧
    (keys_like ids p = [] →
      disambiguate_commit ids p = Except.error ResolveErr.not_found) ∧
    (1 < (keys_like ids p).length → p ∉ ids →
      disambiguate_commit ids p = Except.error ResolveErr.ambiguous) := by
  have hfilter : keys_like ids p
      = ids.filter (fun cid => p.data.isPrefixOf cid.data) := by
    unfold keys_like
    apply List.filter_congr
    intro cid hcid
    exact like_match_plain p.data cid.data hp (hids cid hcid)
  have hrefl : p.data.isPrefixOf p.data = true := by
    induction p.data with
    | nil => rfl
    | cons c l ih => simp [List.isPrefixOf, ih]
  refine ⟨hfilter, ?_, ?_, ?_⟩
  · intro hmem
    have hin : p ∈ keys_like ids p := by
      rw [hfilter]
      exact List.mem_filter.mpr ⟨hmem, hrefl⟩
    unfold disambiguate_commit
    rw [if_neg (by
      intro hlen
      rw [List.length_eq_zero] at hlen
      rw [hlen] at hin
      simp at hin)]
    rw [if_pos (List.elem_iff.mpr hin)]
  · intro hnil
    unfold disambiguate_commit
    rw [if_pos (by rw [hnil]; rfl)]
  · intro hlen hnotmem
    have hnotin : p ∉ keys_like ids p := fun hc => hnotmem (keys_like_sub hc)
    unfold disambiguate_commit
    rw [if_neg (by omega), if_neg (by
      intro hc
      exact hnotin (List.elem_iff.mp hc)), if_pos hlen]

/-- C5 witness: lowercase stores — "ab" is ambiguous between "abc" and
"abd"; the exact id "abc" resolves to itself although "abd" shares the
prefix "ab"; "zz" matches nothing; and `keys_like` is exactly the prefix
filter on these inputs. -/
theorem C5_witness :
    plain_string "ab" = true ∧ plain_string "abc" = true ∧
    plain_string "zz" = true ∧
    keys_like ["abc", "abd"] "ab"
      = ["abc", "abd"].filter (fun cid => "ab".data.isPrefixOf cid.data) ∧
    disambiguate_commit ["abc", "abd"] "abc" = Except.ok "abc" ∧
    disambiguate_commit ["abc", "abd"] "zz"
      = Except.error ResolveErr.not_found ∧
    disambiguate_commit ["abc", "abd"] "ab"
      = Except.error ResolveErr.ambiguous :=
  ⟨by decide, by decide, by decide,
    (C5_keys_like_disambiguation ["abc", "abd"] "ab" (by decide)
      (by decide)).1,
    (C5_keys_like_disambiguation ["abc", "abd"] "abc" (by decide)
      (by decide)).2.1 (by decide),
    (C5_keys_like_disambiguation ["abc", "abd"] "zz" (by decide)
      (by decide)).2.2.1 (by decide),
    (C5_keys_like_disambiguation ["abc", "abd"] "ab" (by decide)
      (by decide)).2.2.2 (by decide) (by decide)⟩

/-! ## Branch storage (claims C8, C10)

Embeds `kishu/storage/branch.py`: the branch table rows, the HEAD file,
`update_head`, `delete_branch`, `rename_branch` and `get_head`.  Errors
are returned alongside the unchanged state, mirroring that the code
raises before issuing any write. -/

structure HeadBranch where
  branch_name : Option String
  commit_id : Option String
deriving DecidableEq, Repr

structure BranchRow where
  branch_name : String
  commit_id : String
deriving DecidableEq, Repr

structure KishuBranchState where
  table : List BranchRow
  head : HeadBranch
deriving DecidableEq, Repr

inductive BranchErr where
  | conflict
  | not_found
deriving DecidableEq, Repr

/-- `KishuBranch.update_head(branch_name, commit_id, is_detach)`. -/
def update_head (head : HeadBranch) (branch_name : Option String)
    (commit_id : Option String) (is_detach : Bool) : HeadBranch :=
  let h1 :=
    if is_detach then { head with branch_name := none }
    else
      match branch_name with
      | some b => { head with branch_name := some b }
      | none => head
  match commit_id with
  | some c => { h1 with commit_id := some c }
  | none => h1

/-- `KishuBranch._contains_branch`: `count(*) == 1` on the branch name. -/
def contains_branch (table : List BranchRow) (branch_name : String) : Bool :=
  table.countP (fun r => r.branch_name = branch_name) = 1

/-- `KishuBranch.get_branch`: the rows with the given name. -/
def get_branch (table : List BranchRow) (branch_name : String) :
    List BranchRow :=
  table.filter (fun r => r.branch_name = branch_name)

/-- `KishuBranch.delete_branch`: refuse the current HEAD branch, then
refuse a missing branch, then delete the row.  The state accompanies the
error verbatim because the code raises before the SQL delete. -/
def delete_branch (st : KishuBranchState) (branch_name : String) :
    Option BranchErr × KishuBranchState :=
  if st.head.branch_name = some branch_name then
    (some BranchErr.conflict, st)
  else if ¬ contains_branch st.table branch_name then
    (some BranchErr.not_found, st)
  else
    (none, { st with
      table := st.table.filter (fun r => ¬ (r.branch_name = branch_name)) })

/-- `KishuBranch.rename_branch`: refuse a missing source, then a name
collision, then rename the row and move HEAD onto the new name when HEAD
sat on the old one. -/
def rename_branch (st : KishuBranchState) (old_name new_name : String) :
    Option BranchErr × KishuBranchState :=
  if ¬ contains_branch st.table old_name then
    (some BranchErr.not_found, st)
  else if contains_branch st.table new_name then
    (some BranchErr.conflict, st)
  else
    let table2 := st.table.map (fun r =>
      if r.branch_name = old_name then { r with branch_name := new_name }
      else r)
    let head2 :=
      if st.head.branch_name = some old_name then
        update_head st.head (some new_name) none false
      else st.head
    (none, { table := table2, head := head2 })

/-- The names of the table's rows. -/
def branch_names (table : List BranchRow) : List String :=
  table.map (fun r => r.branch_name)

theorem contains_branch_iff {table : List BranchRow}
    (wf : (branch_names table).Nodup) (b : String) :
    contains_branch table b = true ↔ b ∈ branch_names table := by
  induction table with
  | nil => simp [contains_branch, branch_names]
  | cons r rest ih =>
    have hwf : (branch_names rest).Nodup ∧
        r.branch_name ∉ branch_names rest := by
      simp only [branch_names, List.map_cons, List.nodup_cons] at wf
      exact ⟨wf.2, wf.1⟩
    by_cases hr : r.branch_name = b
    · subst hr
      have hzero : rest.countP (fun x => x.branch_name = r.branch_name) = 0 := by
        rw [List.countP_eq_zero]
        intro x hx
        simp only [decide_eq_true_eq]
        intro hc
        exact hwf.2 (by rw [← hc]; exact List.mem_map.mpr ⟨x, hx, rfl⟩)
      unfold contains_branch
      rw [List.countP_cons]
      simp [hzero, branch_names]
    · unfold contains_branch at ih ⊢
      rw [List.countP_cons]
      have : (decide (r.branch_name = b)) = false := by simp [hr]
      rw [this]
      simp only [Bool.false_eq_true, if_false, Nat.add_zero, branch_names,
        List.map_cons, List.mem_cons]
      rw [ih hwf.1]
      constructor
      · intro h
        exact Or.inr h
      · intro h
        rcases h with h | h
        · exact absurd h.symm hr
        · exact h

/-- C8: branch deletion and renaming error handling.  Deleting the
branch HEAD is attached to fails with a conflict, deleting an absent
branch fails with not-found, and the branch table is untouched in both
cases.  Renaming an absent branch fails with not-found, renaming onto an
existing name fails with a conflict (table untouched), and an allowed
rename moves the row: the old name disappears, the new name holds the
old commit id, rows under other names are untouched, and HEAD's branch
name becomes the new name exactly when HEAD sat on the renamed branch,
HEAD's commit id unchanged. -/
theorem C8_branch_delete_rename (st : KishuBranchState) (b old_n new_n : String)
    (wf : (branch_names st.table).Nodup) :
    (st.head.branch_name = some b →
      delete_branch st b = (some BranchErr.conflict, st)) ∧
    (st.head.branch_name ≠ some b → b ∉ branch_names st.table →
      delete_branch st b = (some BranchErr.not_found, st)) ∧
    (old_n ∉ branch_names st.table →
      rename_branch st old_n new_n = (some BranchErr.not_found, st)) ∧
    (old_n ∈ branch_names st.table → new_n ∈ branch_names st.table →
      rename_branch st old_n new_n = (some BranchErr.conflict, st)) ∧
    (old_n ∈ branch_names st.table → new_n ∉ branch_names st.table →
      ∃ st2, rename_branch st old_n new_n = (none, st2) ∧
        old_n ∉ branch_names st2.table ∧
        (∀ cid, BranchRow.mk old_n cid ∈ st.table →
          BranchRow.mk new_n cid ∈ st2.table) ∧
        (∀ r : BranchRow, r.branch_name ≠ old_n → r.branch_name ≠ new_n →
          (r ∈ st2.table ↔ r ∈ st.table)) ∧
        st2.head.branch_name =
          (if st.head.branch_name = some old_n then some new_n
            else st.head.branch_name) ∧
        st2.head.commit_id = st.head.commit_id) := by
  refine ⟨?_, ?_, ?_, ?_, ?_⟩
  · intro h
    unfold delete_branch
    rw [if_pos h]
  · intro h1 h2
    unfold delete_branch
    rw [if_neg h1, if_pos]
    intro hc
    exact h2 ((contains_branch_iff wf b).mp hc)
  · intro h
    unfold rename_branch
    rw [if_pos]
    intro hc
    exact h ((contains_branch_iff wf old_n).mp hc)
  · intro h1 h2
    unfold rename_branch
    rw [if_neg (by
        intro hc
        exact hc ((contains_branch_iff wf old_n).mpr h1)),
      if_pos ((contains_branch_iff wf new_n).mpr h2)]
  · intro h1 h2
    have hne : old_n ≠ new_n := fun hc => h2 (hc ▸ h1)
    have hstep : rename_branch st old_n new_n = (none,
        { table := st.table.map (fun r =>
            if r.branch_name = old_n then { r with branch_name := new_n }
            else r),
          head := if st.head.branch_name = some old_n then
              update_head st.head (some new_n) none false
            else st.head }) := by
      unfold rename_branch
      rw [if_neg (by
          intro hc
          exact hc ((contains_branch_iff wf old_n).mpr h1)),
        if_neg (by
          intro hc
          exact h2 ((contains_branch_iff wf new_n).mp hc))]
    refine ⟨_, hstep, ?_, ?_, ?_, ?_, ?_⟩
    · intro hc
      rcases List.mem_map.mp hc with ⟨r2, hr2, hr2eq⟩
      rcases List.mem_map.mp hr2 with ⟨r, hr, hreq⟩
      by_cases hcase : r.branch_name = old_n
      · rw [if_pos hcase] at hreq
        rw [← hreq] at hr2eq
        exact hne hr2eq.symm
      · rw [if_neg hcase] at hreq
        rw [← hreq] at hr2eq
        exact hcase hr2eq
    · intro cid hmem
      refine List.mem_map.mpr ⟨BranchRow.mk old_n cid, hmem, ?_⟩
      rw [if_pos rfl]
    · intro r hro hrn
      constructor
      · intro hmem
        rcases List.mem_map.mp hmem with ⟨r0, hr0, hr0eq⟩
        by_cases hcase : r0.branch_name = old_n
        · rw [if_pos hcase] at hr0eq
          rw [← hr0eq] at hrn
          exact absurd rfl hrn
        · rw [if_neg hcase] at hr0eq
          rw [← hr0eq]
          exact hr0
      · intro hmem
        refine List.mem_map.mpr ⟨r, hmem, ?_⟩
        rw [if_neg hro]
    · by_cases hcase : st.head.branch_name = some old_n
      · rw [if_pos hcase, if_pos hcase]
        rfl
      · rw [if_neg hcase, if_neg hcase]
    · by_cases hcase : st.head.branch_name = some old_n
      · show (if st.head.branch_name = some old_n then
            update_head st.head (some new_n) none false
          else st.head).commit_id = st.head.commit_id
        rw [if_pos hcase]
        rfl
      · show (if st.head.branch_name = some old_n then
            update_head st.head (some new_n) none false
          else st.head).commit_id = st.head.commit_id
        rw [if_neg hcase]

/-- C8 witness: table `main -> c1, dev -> c2` with HEAD attached to
`main`: deleting `main` conflicts, deleting `gone` is not found, renaming
`gone` is not found, renaming `dev` onto `main` conflicts, and renaming
`main` to `trunk` succeeds and retargets HEAD onto `trunk` at the same
commit. -/
theorem C8_witness :
    (branch_names [BranchRow.mk "main" "c1", BranchRow.mk "dev" "c2"]).Nodup ∧
    delete_branch
        (KishuBranchState.mk [BranchRow.mk "main" "c1", BranchRow.mk "dev" "c2"]
          (HeadBranch.mk (some "main") (some "c1"))) "main"
      = (some BranchErr.conflict,
        KishuBranchState.mk [BranchRow.mk "main" "c1", BranchRow.mk "dev" "c2"]
          (HeadBranch.mk (some "main") (some "c1"))) ∧
    delete_branch
        (KishuBranchState.mk [BranchRow.mk "main" "c1", BranchRow.mk "dev" "c2"]
          (HeadBranch.mk (some "main") (some "c1"))) "gone"
      = (some BranchErr.not_found,
        KishuBranchState.mk [BranchRow.mk "main" "c1", BranchRow.mk "dev" "c2"]
          (HeadBranch.mk (some "main") (some "c1"))) ∧
    rename_branch
        (KishuBranchState.mk [BranchRow.mk "main" "c1", BranchRow.mk "dev" "c2"]
          (HeadBranch.mk (some "main") (some "c1"))) "gone" "x"
      = (some BranchErr.not_found,
        KishuBranchState.mk [BranchRow.mk "main" "c1", BranchRow.mk "dev" "c2"]
          (HeadBranch.mk (some "main") (some "c1"))) ∧
    rename_branch
        (KishuBranchState.mk [BranchRow.mk "main" "c1", BranchRow.mk "dev" "c2"]
          (HeadBranch.mk (some "main") (some "c1"))) "dev" "main"
      = (some BranchErr.conflict,
        KishuBranchState.mk [BranchRow.mk "main" "c1", BranchRow.mk "dev" "c2"]
          (HeadBranch.mk (some "main") (some "c1"))) ∧
    (∃ st2, rename_branch
        (KishuBranchState.mk [BranchRow.mk "main" "c1", BranchRow.mk "dev" "c2"]
          (HeadBranch.mk (some "main") (some "c1"))) "main" "trunk"
        = (none, st2) ∧
      "main" ∉ branch_names st2.table ∧
      (∀ cid, BranchRow.mk "main" cid ∈
          [BranchRow.mk "main" "c1", BranchRow.mk "dev" "c2"] →
        BranchRow.mk "trunk" cid ∈ st2.table) ∧
      (∀ r : BranchRow, r.branch_name ≠ "main" → r.branch_name ≠ "trunk" →
        (r ∈ st2.table ↔
          r ∈ [BranchRow.mk "main" "c1", BranchRow.mk "dev" "c2"])) ∧
      st2.head.branch_name =
        (if (HeadBranch.mk (some "main") (some "c1")).branch_name
            = some "main" then some "trunk"
          else (HeadBranch.mk (some "main") (some "c1")).branch_name) ∧
      st2.head.commit_id
        = (HeadBranch.mk (some "main") (some "c1")).commit_id) :=
  ⟨by decide,
    (C8_branch_delete_rename _ "main" "x" "y" (by decide)).1 (by decide),
    (C8_branch_delete_rename _ "gone" "x" "y" (by decide)).2.1 (by decide)
      (by decide),
    (C8_branch_delete_rename _ "b" "gone" "x" (by decide)).2.2.1 (by decide),
    (C8_branch_delete_rename _ "b" "dev" "main" (by decide)).2.2.2.1
      (by decide) (by decide),
    (C8_branch_delete_rename _ "b" "main" "trunk" (by decide)).2.2.2.2
      (by decide) (by decide)⟩

/-! ## Reading HEAD (claim C10) -/

/-- Outcome of parsing the head file's contents
(`HeadBranch.from_json`): a head value, a `json.decoder.JSONDecodeError`,
or any other exception (which `get_head` does not catch). -/
inductive ParseOutcome where
  | parsed (h : HeadBranch)
  | json_error
  | other_error
deriving DecidableEq, Repr

/-- `KishuBranch.get_head`: read and parse the head file, catching
exactly `FileNotFoundError` (the file is absent, modelled as `none`) and
`JSONDecodeError`, both of which yield the default
`HeadBranch(branch_name=None, commit_id=None)`; any other parse outcome
propagates. -/
def get_head (file : Option String) (parse : String → ParseOutcome) :
    Except Unit HeadBranch :=
  match file with
  | none => Except.ok (HeadBranch.mk none none)
  | some s =>
    match parse s with
    | ParseOutcome.parsed h => Except.ok h
    | ParseOutcome.json_error => Except.ok (HeadBranch.mk none none)
    | ParseOutcome.other_error => Except.error ()

/-- C10: `get_head` is total over the two stated failure modes — when the
head file is missing, and when its contents fail JSON decoding, it
returns `HeadBranch(branch_name=None, commit_id=None)` instead of
raising, so callers observe a well-formed head value. -/
theorem C10_get_head_total (file : Option String)
    (parse : String → ParseOutcome) :
    (file = none →
      get_head file parse = Except.ok (HeadBranch.mk none none)) ∧
    (∀ s, file = some s → parse s = ParseOutcome.json_error →
      get_head file parse = Except.ok (HeadBranch.mk none none)) := by
  constructor
  · intro h
    subst h
    rfl
  · intro s h hp
    subst h
    simp [get_head, hp]

/-- C10 witness: a missing head file, and a head file holding text that
is not valid JSON. -/
theorem C10_witness :
    get_head none (fun _ => ParseOutcome.other_error)
      = Except.ok (HeadBranch.mk none none) ∧
    get_head (some "not valid json") (fun _ => ParseOutcome.json_error)
      = Except.ok (HeadBranch.mk none none) :=
  ⟨(C10_get_head_total none (fun _ => ParseOutcome.other_error)).1 rfl,
    (C10_get_head_total (some "not valid json")
      (fun _ => ParseOutcome.json_error)).2 "not valid json" rfl rfl⟩

/-! ## Storing commit entries (claim C9)

Embeds `KishuCommit.store_commit` from `kishu/storage/commit.py`.  The
serializer (`dill.dumps`) and `sys.getsizeof` are abstract parameters of
the model: the embedding only relies on the shape of the code — one
insert into `commit_entry`, one insert into `session_state` carrying the
dumped `active_vses_string`, and a return value computed as
`getsizeof(dumps(active_vses_string))`. -/

structure CommitEntryM where
  commit_id : String
  message : String
  active_vses_string : Option String
deriving DecidableEq, Repr

structure DillModel where
  dumps_entry : CommitEntryM → List Nat
  dumps_str : Option String → List Nat
  getsizeof : List Nat → Nat

structure KishuCommitDB where
  commit_entry : List (String × List Nat)
  session_state : List (String × List Nat)
deriving DecidableEq, Repr

/-- `KishuCommit.store_commit`: insert the dumped entry into
`commit_entry`, insert the dumped active-VS fingerprint into
`session_state`, and return `sys.getsizeof(dill.dumps(active_vses_string))`. -/
def store_commit (m : DillModel) (db : KishuCommitDB) (e : CommitEntryM) :
    KishuCommitDB × Nat :=
  (KishuCommitDB.mk
      (db.commit_entry ++ [(e.commit_id, m.dumps_entry e)])
      (db.session_state ++ [(e.commit_id, m.dumps_str e.active_vses_string)]),
    m.getsizeof (m.dumps_str e.active_vses_string))

/-- The total number of payload bytes `store_commit` writes into the two
tables — what the claim calls "the number of bytes written". -/
def bytes_written (m : DillModel) (e : CommitEntryM) : Nat :=
  (m.dumps_entry e).length + (m.dumps_str e.active_vses_string).length

/-- A concrete serializer assignment witnessing the divergence: any
serializer with a nonempty commit-entry blob exhibits it, because the
return value never looks at that blob. -/
def toy_dill : DillModel :=
  DillModel.mk (fun _ => [0, 0, 0]) (fun _ => [1]) (fun bs => bs.length + 33)

/-- C9 counterexample: the claim that `store_commit` "returns the number
of bytes written" is false — the code returns
`sys.getsizeof(dill.dumps(entry.active_vses_string))`, which ignores the
commit-entry blob entirely (under the concrete serializer model:
34 returned, 4 written). -/
theorem C9_counterexample :
    (store_commit toy_dill (KishuCommitDB.mk [] [])
      (CommitEntryM.mk "c1" "m" (some "vs"))).2 = 34 ∧
    bytes_written toy_dill (CommitEntryM.mk "c1" "m" (some "vs")) = 4 ∧
    (store_commit toy_dill (KishuCommitDB.mk [] [])
        (CommitEntryM.mk "c1" "m" (some "vs"))).2
      ≠ bytes_written toy_dill (CommitEntryM.mk "c1" "m" (some "vs")) := by
  refine ⟨rfl, rfl, ?_⟩
  decide

/-- C9 amended: `store_commit(entry)` inserts exactly one row into the
`commit_entry` table and one row into the `session_state` table, the
latter carrying the serialized active-VS fingerprint, and returns the
in-memory size of the serialized fingerprint — a value depending only on
`active_vses_string`, not the number of bytes written. -/
theorem C9_store_commit (m : DillModel) (db : KishuCommitDB)
    (e : CommitEntryM) :
    (store_commit m db e).1.commit_entry
      = db.commit_entry ++ [(e.commit_id, m.dumps_entry e)] ∧
    (store_commit m db e).1.session_state
      = db.session_state ++ [(e.commit_id, m.dumps_str e.active_vses_string)] ∧
    (store_commit m db e).2
      = m.getsizeof (m.dumps_str e.active_vses_string) ∧
    (∀ e2 : CommitEntryM, e2.active_vses_string = e.active_vses_string →
      (store_commit m db e2).2 = (store_commit m db e).2) := by
  refine ⟨rfl, rfl, rfl, ?_⟩
  intro e2 h
  show m.getsizeof (m.dumps_str e2.active_vses_string)
    = m.getsizeof (m.dumps_str e.active_vses_string)
  rw [h]

/-- C9 witness: two entries differing in id and message but sharing a
fingerprint produce the same return value; row insertion at a concrete
database. -/
theorem C9_witness :
    (store_commit toy_dill (KishuCommitDB.mk [] [])
        (CommitEntryM.mk "c1" "m" (some "vs"))).1.commit_entry
      = [("c1", toy_dill.dumps_entry (CommitEntryM.mk "c1" "m" (some "vs")))] ∧
    (store_commit toy_dill (KishuCommitDB.mk [] [])
        (CommitEntryM.mk "c1" "m" (some "vs"))).1.session_state
      = [("c1", toy_dill.dumps_str (some "vs"))] ∧
    (store_commit toy_dill (KishuCommitDB.mk [] [])
        (CommitEntryM.mk "c2" "other message" (some "vs"))).2
      = (store_commit toy_dill (KishuCommitDB.mk [] [])
        (CommitEntryM.mk "c1" "m" (some "vs"))).2 :=
  ⟨(C9_store_commit toy_dill (KishuCommitDB.mk [] [])
      (CommitEntryM.mk "c1" "m" (some "vs"))).1,
    (C9_store_commit toy_dill (KishuCommitDB.mk [] [])
      (CommitEntryM.mk "c1" "m" (some "vs"))).2.1,
    (C9_store_commit toy_dill (KishuCommitDB.mk [] [])
      (CommitEntryM.mk "c1" "m" (some "vs"))).2.2.2
      (CommitEntryM.mk "c2" "other message" (some "vs")) rfl⟩

/-! ## Checkout (claim C1)

Embeds the live statements of `KishuForJupyter.checkout`: resolve the
argument as a branch, disambiguate the commit id, fetch the commit's
session state (raising when absent), and return a message.  In the
source, the restore-plan execution, the `_checkout_namespace` call, the
graph `jump` and the HEAD update are all commented out, so the live code
never touches the namespace, the graph or HEAD; the `incremental_cr`
configuration block only reads state and is omitted.  The namespace
replacement helper `_checkout_namespace` itself exists and is embedded
as `checkout_namespace`. -/

structure JupyterState where
  branches : List BranchRow
  commit_entry_ids : List String
  user_ns : NsList
  head : HeadBranch
  graph : KishuCommitGraph
deriving DecidableEq, Repr

inductive CheckoutErr where
  | resolution (e : ResolveErr)
  | missing_commit_entry
deriving DecidableEq, Repr

/-- `KishuForJupyter.checkout` as written in the source (commented-out
restore/HEAD-update statements elided because they are not executed):
returns the unchanged state together with the status message. -/
def checkout (st : JupyterState) (branch_or_commit_id : String) :
    Except CheckoutErr (JupyterState × String) :=
  let retrieved := st.branches.filter
    (fun r => r.branch_name = branch_or_commit_id)
  let resolved : Bool × String :=
    match retrieved with
    | [r] => (false, r.commit_id)
    | _ => (true, branch_or_commit_id)
  match disambiguate_commit st.commit_entry_ids resolved.2 with
  | Except.error e => Except.error (CheckoutErr.resolution e)
  | Except.ok cid =>
    if st.commit_entry_ids.contains cid then
      Except.ok (st,
        if resolved.1 then "Checkout " ++ cid ++ " in detach mode."
        else "Checkout " ++ branch_or_commit_id ++ " (" ++ cid ++ ").")
    else Except.error CheckoutErr.missing_commit_entry

/-- `KishuForJupyter._checkout_namespace`: update the live namespace with
the result namespace and drop every live key absent from it.  The live
checkout path never calls it. -/
def checkout_namespace (user_ns target_ns : NsList) : NsList :=
  (nsUpdate user_ns target_ns).filter
    (fun kv => (nsLookup target_ns kv.1).isSome)

/-- C1: the claim fails on the code.  Checkout of the resolvable commit
"c1" (whose commit entry and session state exist) succeeds, yet the live
namespace is returned unchanged — not replaced by the restored
namespace — and neither HEAD nor the commit graph moves to "c1", because
the restore-plan execution, `_checkout_namespace` call, `jump` and
`update_head` are commented out in `KishuForJupyter.checkout`.  This
contradicts the code's own docstring ("Restores a variable state from
commit_id"), the spec's checkout data flow, and this claim. -/
theorem C1_checkout_performs_no_restore :
    checkout
        (JupyterState.mk [] ["c1"] [("b", PyObj.mk 2 true true)]
          (HeadBranch.mk (some "main") (some "c0"))
          (KishuCommitGraph.mk [CommitInfo.mk "c0" ""] "c0"))
        "c1"
      = Except.ok
        (JupyterState.mk [] ["c1"] [("b", PyObj.mk 2 true true)]
          (HeadBranch.mk (some "main") (some "c0"))
          (KishuCommitGraph.mk [CommitInfo.mk "c0" ""] "c0"),
        "Checkout c1 in detach mode.") ∧
    ([("b", PyObj.mk 2 true true)] : NsList)
      ≠ checkout_namespace [("b", PyObj.mk 2 true true)]
        [("a", PyObj.mk 1 true true)] ∧
    (HeadBranch.mk (some "main") (some "c0")).commit_id ≠ some "c1" ∧
    (KishuCommitGraph.mk [CommitInfo.mk "c0" ""] "c0").head_id ≠ "c1" :=
  ⟨by rfl, by decide, by decide, by decide⟩

end Kishu
